import Mathlib

/-!
# go-universal/fs: the flexible store

A shallow embedding of `fs_flexible.go` and `utils.go`, together with the parts of the Go
standard library they call (`path/filepath`, `path`, `strings`, `io/fs`, `os`, `regexp`).

Conventions of the embedding:

* Go strings are Lean strings.  The library only ever inspects the bytes `/` and `.`, which are
  single bytes of a UTF-8 string, so working on characters instead of bytes changes nothing.
* The build target is a Unix one: `filepath.Separator` is `/` and there are no volume names.
* A Go `error` is an `Option GoError`, `nil` being `none`.
* A backing store (`os.DirFS` or `embed.FS`) is a finite tree that does not change while a handle
  is in use.  It reports failures through `StoreError`, which is kept apart from the two control
  values `fs.SkipDir` and `fs.SkipAll`: neither store ever returns those.
* The regular-expression dialect is a parameter `Compile`, with `none` for a pattern that does
  not compile.
* `fs.WalkDir` additionally returns the list of calls it made to the visitor.  That list is not
  part of any Go return value; it is there so that statements about what a walk visited can be
  written down.
-/

/-! ## strings -/

namespace strings

/-- Go `strings.Join`: the elements with `sep` between consecutive ones. -/
def Join : List String → String → String
  | [], _ => ""
  | [a], _ => a
  | a :: b :: rest, sep => a ++ sep ++ Join (b :: rest) sep

/-- Go `strings.TrimLeft`: drop every leading character that occurs in `cutset`. -/
def TrimLeft (s cutset : String) : String :=
  String.mk (s.data.dropWhile (fun c => cutset.data.contains c))

end strings

/-! ## path/filepath (Unix) -/

namespace filepath

/-- Go `filepath.Separator` on a Unix target. -/
def Separator : Char := '/'

/-- Go `os.IsPathSeparator`. -/
def IsPathSeparator (c : Char) : Bool := c == Separator

/-- The test `r == n || IsPathSeparator(path[r])` of `Clean`, on the unread rest of the path. -/
def endOfElem : List Char → Bool
  | [] => true
  | c :: _ => IsPathSeparator c

/-- The inner loop `for out.w > dotdot && !IsPathSeparator(out.index(out.w)) { out.w-- }` of
`Clean`.  The write buffer is kept last byte first, so its length is `out.w`, and `top` is the byte
at index `out.w`, that is the one dropped last. -/
def unwind (dotdot : Nat) : Char → List Char → List Char
  | _, [] => []
  | top, c :: out =>
    if (c :: out).length > dotdot && !IsPathSeparator top then unwind dotdot c out
    else c :: out

/-- The main loop `for r < n { switch ... }` of `Clean`.  The second argument is `path[r:]`, the
third the write buffer (last byte first) and the fourth `dotdot`.  Every round reads at least one
byte, so a fuel of `len(path)` rounds is never used up. -/
def cleanLoop (rooted : Bool) : Nat → List Char → List Char → Nat → List Char
  | 0, _, out, _ => out
  | _ + 1, [], out, _ => out
  | fuel + 1, c :: cs, out, dotdot =>
    if IsPathSeparator c then
      -- empty path element
      cleanLoop rooted fuel cs out dotdot
    else if c == '.' && endOfElem cs then
      -- . element
      cleanLoop rooted fuel cs out dotdot
    else if c == '.' && (cs.head? == some '.' && endOfElem (cs.drop 1)) then
      -- .. element: remove to last separator
      if out.length > dotdot then
        -- can backtrack
        match out with
        | [] => cleanLoop rooted fuel (cs.drop 1) out dotdot
        | top :: out1 => cleanLoop rooted fuel (cs.drop 1) (unwind dotdot top out1) dotdot
      else if !rooted then
        -- cannot backtrack, but not rooted, so append .. element
        let out1 := if out.length > 0 then Separator :: out else out
        cleanLoop rooted fuel (cs.drop 1) ('.' :: '.' :: out1) (out1.length + 2)
      else
        cleanLoop rooted fuel (cs.drop 1) out dotdot
    else
      -- real path element: add slash if needed, then copy the element
      let out1 :=
        if (rooted && out.length != 1) || (!rooted && out.length != 0) then Separator :: out
        else out
      cleanLoop rooted fuel ((c :: cs).dropWhile (fun x => !IsPathSeparator x))
        (((c :: cs).takeWhile (fun x => !IsPathSeparator x)).reverse ++ out1) dotdot

/-- Go `filepath.Clean` on the characters of the path.  On a Unix target there is no volume
name, and `postClean` and `FromSlash` leave the result as it is. -/
def cleanChars (path : List Char) : List Char :=
  match path with
  | [] => ['.']
  | c :: cs =>
    let out :=
      if IsPathSeparator c then cleanLoop true (c :: cs).length cs [Separator] 1
      else cleanLoop false (c :: cs).length (c :: cs) [] 0
    -- turn empty string into "."
    let out := if out.length == 0 then ['.'] else out
    out.reverse

/-- Go `filepath.Clean`. -/
def Clean (path : String) : String := String.mk (cleanChars path.data)

/-- Go `filepath.Join`: clean the elements from the first non-empty one on, joined by the
separator; the empty string when every element is empty. -/
def Join : List String → String
  | [] => ""
  | e :: rest =>
    if e != "" then Clean (strings.Join (e :: rest) (String.singleton Separator))
    else Join rest

/-- Go `filepath.ToSlash`. -/
def ToSlash (path : String) : String :=
  if Separator == '/' then path
  else String.map (fun c => if c == Separator then '/' else c) path

end filepath

/-! ## utils.go -/

/-- Source `normalizePath(path ...string)`: the variadic argument is the list of fragments. -/
def normalizePath (path : List String) : String :=
  filepath.ToSlash (filepath.Clean (filepath.Join path))

/-! ## path -/

namespace pathpkg

/-- Go `path.Clean`: the algorithm of `filepath.Clean` with `/` as the only separator. -/
def Clean (p : String) : String := filepath.Clean p

/-- Go `path.Join`: the elements joined by `/`, leading empty ones dropped, then cleaned; the
empty string when every element is empty. -/
def Join (elem : List String) : String :=
  if (elem.map String.length).sum == 0 then ""
  else
    Clean (elem.foldl
      (fun buf e =>
        if buf.length > 0 || e != "" then (if buf.length > 0 then buf ++ "/" else buf) ++ e
        else buf)
      "")

end pathpkg

/-! ## Errors -/

/-- The failures a backing store reports (the cause inside an `*fs.PathError`). -/
inductive StoreError where
  | NotExist
  | NotDir
  | Invalid
  | Permission
  | Other (code : Nat)
  deriving DecidableEq, Repr

/-- The causes with which a store says that it holds no entry at the path: the name is not
there (ENOENT), the name lies below something that is not a directory (ENOTDIR), or the name is
not one a store can hold at all (`fs.ErrInvalid`). -/
def StoreError.entryAbsent : StoreError → Bool
  | StoreError.NotExist => true
  | StoreError.NotDir => true
  | StoreError.Invalid => true
  | _ => false

/-- The Go `error` values that occur in this package. -/
inductive GoError where
  | SkipDir
  | SkipAll
  | New (text : String)
  | Store (cause : StoreError)
  deriving DecidableEq, Repr

namespace errors

/-- Go `errors.New`. -/
def New (text : String) : GoError := GoError.New text

end errors

namespace os

/-- Go `os.IsNotExist`. -/
def IsNotExist : Option GoError → Bool
  | some (GoError.Store StoreError.NotExist) => true
  | _ => false

end os

/-! ## io/fs -/

/-- Go `fs.DirEntry`, as far as the package looks at it. -/
structure DirEntry where
  Name : String
  IsDir : Bool
  deriving DecidableEq, Repr

/-- Go `fs.FileInfo`, as far as the package looks at it. -/
structure FileInfo where
  Name : String
  IsDir : Bool
  deriving DecidableEq, Repr

/-- An entry of a backing store together with everything below it.  For a directory, `entries`
and `readErr` are what `fs.ReadDir` returns for it: the entries read, and the error if reading
failed (the entries read before the failure are still returned). -/
inductive Node where
  | file (name : String)
  | dir (name : String) (entries : List Node) (readErr : Option StoreError)

namespace Node

/-- The base name the store reports for the entry. -/
def Name : Node → String
  | file name => name
  | dir name _ _ => name

/-- Whether the entry is a directory. -/
def IsDir : Node → Bool
  | file _ => false
  | dir _ _ _ => true

/-- The entry as `fs.WalkDir` hands it to the visitor. -/
def entry (n : Node) : DirEntry := { Name := n.Name, IsDir := n.IsDir }

end Node

/-- Go `fs.FS`: what is found at a path, or the reason nothing is. -/
structure FS where
  resolve : String → Except StoreError Node

/-- One call of the visitor: the three arguments of a Go `fs.WalkDirFunc`. -/
structure Visit where
  path : String
  entry : Option DirEntry
  err : Option GoError
  deriving DecidableEq, Repr

/-- Go `fs.WalkDirFunc`, with the variables the closure captures passed along as a state. -/
abbrev WalkDirFunc (σ : Type) := σ → String → Option DirEntry → Option GoError → σ × Option GoError

namespace fs

/-- Go `fs.SkipDir`. -/
def SkipDir : GoError := GoError.SkipDir

/-- Go `fs.SkipAll`. -/
def SkipAll : GoError := GoError.SkipAll

/-- Go `fs.Stat`. -/
def Stat (fsys : FS) (name : String) : Except StoreError FileInfo :=
  match fsys.resolve name with
  | Except.error e => Except.error e
  | Except.ok n => Except.ok { Name := n.Name, IsDir := n.IsDir }

mutual
/-- Go `fs.walkDir`.  Returns the state, the error and the visitor calls made. -/
def walkDir {σ : Type} (fn : WalkDirFunc σ) (name : String) :
    Node → σ → σ × Option GoError × List Visit
  | Node.file nm, s =>
    let d : DirEntry := { Name := nm, IsDir := false }
    match fn s name (some d) none with
    | (s1, err) => (s1, err, [{ path := name, entry := some d, err := none }])
  | Node.dir nm entries readErr, s =>
    let d : DirEntry := { Name := nm, IsDir := true }
    let v0 : Visit := { path := name, entry := some d, err := none }
    match fn s name (some d) none with
    | (s1, some err) =>
      -- a directory answered with SkipDir is skipped successfully
      (s1, if err = SkipDir then none else some err, [v0])
    | (s1, none) =>
      match readErr with
      | some e =>
        -- second call, to report the ReadDir error
        let v1 : Visit := { path := name, entry := some d, err := some (GoError.Store e) }
        match fn s1 name (some d) (some (GoError.Store e)) with
        | (s2, some err) => (s2, if err = SkipDir then none else some err, [v0, v1])
        | (s2, none) =>
          match walkDirEntries fn name entries s2 with
          | (s3, err, t) => (s3, err, v0 :: v1 :: t)
      | none =>
        match walkDirEntries fn name entries s1 with
        | (s3, err, t) => (s3, err, v0 :: t)
/-- The loop `for _, d1 := range dirs` of Go `fs.walkDir`. -/
def walkDirEntries {σ : Type} (fn : WalkDirFunc σ) (name : String) :
    List Node → σ → σ × Option GoError × List Visit
  | [], s => (s, none, [])
  | d1 :: rest, s =>
    match walkDir fn (pathpkg.Join [name, d1.Name]) d1 s with
    | (s1, some err, t) =>
      -- SkipDir ends the loop, any other error is returned
      (s1, if err = SkipDir then none else some err, t)
    | (s1, none, t) =>
      match walkDirEntries fn name rest s1 with
      | (s2, err, t2) => (s2, err, t ++ t2)
end

/-- Go `fs.WalkDir`.  Returns the state, the error and the visitor calls made. -/
def WalkDir {σ : Type} (fsys : FS) (root : String) (fn : WalkDirFunc σ) (s : σ) :
    σ × Option GoError × List Visit :=
  let r : σ × Option GoError × List Visit :=
    match fsys.resolve root with
    | Except.error e =>
      match fn s root none (some (GoError.Store e)) with
      | (s1, err) => (s1, err, [{ path := root, entry := none, err := some (GoError.Store e) }])
    | Except.ok n => walkDir fn root n s
  match r with
  | (s1, err, t) => (s1, if err = some SkipDir ∨ err = some SkipAll then none else err, t)

end fs

/-! ## regexp -/

/-- A compiled Go `*regexp.Regexp`, as far as the package uses it. -/
structure Regexp where
  MatchString : String → Bool

/-! ## fs_flexible.go -/

/-- Source `flexible`. -/
structure flexible where
  files : FS

/-- What an operation hands back: the two Go return values, and the visitor calls its walk
made. -/
structure Outcome (α : Type) where
  value : α
  err : Option GoError
  visited : List Visit

namespace flexible

/-- Source `flexible.Exists`. -/
def Exists (f : flexible) (path : String) : Bool × Option GoError :=
  let path := normalizePath [path]
  match fs.Stat f.files path with
  | Except.error e =>
    if os.IsNotExist (some (GoError.Store e)) then (false, none)
    else (false, some (GoError.Store e))
  | Except.ok info => (!info.IsDir, none)

/-- The visitor closure of `flexible.Find`; the state is the captured `result`.  `fs.WalkDir`
hands over a nil entry only together with an error, so the branch for a nil entry without an
error is never taken. -/
def FindFunc (rx : Regexp) : WalkDirFunc String :=
  fun result p entry err =>
    match err with
    | some e => (result, some e)
    | none =>
      match entry with
      | none => (result, none)
      | some entry =>
        if !entry.IsDir && rx.MatchString entry.Name then (normalizePath [p], some fs.SkipAll)
        else (result, none)

/-- Source `flexible.Find`. -/
def Find (Compile : String → Option Regexp) (f : flexible) (dir pattern : String) :
    Outcome (Option String) :=
  let dir := normalizePath [dir]
  match Compile pattern with
  | none => { value := none, err := some (errors.New "invalid regex pattern"), visited := [] }
  | some rx =>
    match fs.WalkDir f.files dir (FindFunc rx) "" with
    | (_, some err, t) => { value := none, err := some err, visited := t }
    | (result, none, t) =>
      if result == "" then { value := none, err := none, visited := t }
      else { value := some result, err := none, visited := t }

/-- The visitor closure of `flexible.Search`; `rxSkip` is `none` for the nil skip regex. -/
def SearchFunc (rxFind : Regexp) (rxSkip : Option Regexp) : WalkDirFunc String :=
  fun result p entry err =>
    match err with
    | some e => (result, some e)
    | none =>
      match entry with
      | none => (result, none)
      | some entry =>
        if !entry.IsDir && rxFind.MatchString entry.Name &&
            (match rxSkip with
             | none => true
             | some rx => !rx.MatchString entry.Name) then
          (normalizePath [p], some fs.SkipAll)
        else (result, none)

/-- The walk and the result handling of `flexible.Search`, once both patterns are compiled. -/
def searchWalk (f : flexible) (dir : String) (rxFind : Regexp) (rxSkip : Option Regexp) :
    Outcome (Option String) :=
  match fs.WalkDir f.files dir (SearchFunc rxFind rxSkip) "" with
  | (_, some err, t) => { value := none, err := some err, visited := t }
  | (result, none, t) =>
    if result == "" then { value := none, err := none, visited := t }
    else { value := some result, err := none, visited := t }

/-- Source `flexible.Search`. -/
def Search (Compile : String → Option Regexp) (f : flexible) (dir phrase ignore ext : String) :
    Outcome (Option String) :=
  let dir := normalizePath [dir]
  let ext := strings.TrimLeft ext "."
  -- compile the find regex
  match (if ext == "" then Compile (phrase ++ ".*") else Compile (phrase ++ ".*\\." ++ ext)) with
  | none => { value := none, err := some (errors.New "invalid search pattern"), visited := [] }
  | some rxFind =>
    -- compile the ignore regex if provided
    if ignore != "" then
      match Compile (".*" ++ ignore ++ ".*") with
      | none =>
        { value := none, err := some (errors.New "invalid ignore pattern"), visited := [] }
      | some rxSkip => searchWalk f dir rxFind (some rxSkip)
    else searchWalk f dir rxFind none

/-- The visitor closure of `flexible.Lookup`; the state is the captured `result` slice. -/
def LookupFunc (rx : Regexp) : WalkDirFunc (List String) :=
  fun result p entry err =>
    match err with
    | some e => (result, some e)
    | none =>
      match entry with
      | none => (result, none)
      | some entry =>
        if !entry.IsDir && rx.MatchString entry.Name then (result ++ [normalizePath [p]], none)
        else (result, none)

/-- Source `flexible.Lookup`.  A nil slice is the empty list. -/
def Lookup (Compile : String → Option Regexp) (f : flexible) (dir pattern : String) :
    Outcome (List String) :=
  let dir := normalizePath [dir]
  match Compile pattern with
  | none => { value := [], err := some (errors.New "invalid regex pattern"), visited := [] }
  | some rx =>
    match fs.WalkDir f.files dir (LookupFunc rx) [] with
    | (_, some err, t) => { value := [], err := some err, visited := t }
    | (result, none, t) =>
      if result.length == 0 then { value := [], err := none, visited := t }
      else { value := result, err := none, visited := t }

end flexible

/-! ## Specification-level view of cleaned paths -/

namespace filepath

/-- A real path element: non-empty, free of separators, and neither "." nor "..". -/
def IsElem (e : List Char) : Prop :=
  e ≠ [] ∧ (∀ c ∈ e, IsPathSeparator c = false) ∧ e ≠ ['.'] ∧ e ≠ ['.', '.']

/-- What the write buffer starts with: the leading separator of a rooted path, or nothing. -/
def rootMark (rooted : Bool) : List Char := if rooted then [Separator] else []

/-- The write buffer (last byte first) that holds the given elements (last element first),
with one separator between neighbours. -/
def renderR (rooted : Bool) : List (List Char) → List Char
  | [] => rootMark rooted
  | e :: rest =>
    e.reverse ++ (if rest.isEmpty then rootMark rooted else Separator :: renderR rooted rest)

/-- The elements written out in reading order, each one behind a separator. -/
def tailStr : List (List Char) → List Char
  | [] => []
  | e :: rest => Separator :: (e ++ tailStr rest)

/-- The elements written out in reading order, with a separator between neighbours. -/
def joined : List (List Char) → List Char
  | [] => []
  | e :: rest => e ++ tailStr rest

/-- The element "..". -/
def dotdotElem : List Char := ['.', '.']

/-- The buffer holds real elements on top of a run of ".." elements (none when rooted), and
`dotdot` is the length of that run as written. -/
def Valid (rooted : Bool) (st : List (List Char)) (d : Nat) : Prop :=
  ∃ (es : List (List Char)) (k : Nat), st = es ++ List.replicate k dotdotElem ∧
    (∀ e ∈ es, IsElem e) ∧ (rooted = true → k = 0) ∧
    d = (renderR rooted (List.replicate k dotdotElem)).length

end filepath

/-! ## Specification-level view of a walk -/

mutual
/-- The visitor calls of a complete walk below an entry, in the order of the walk: the entry
itself, the report of a failed directory read if there is one, then the entries it holds. -/
def Node.visits (name : String) : Node → List Visit
  | Node.file nm => [{ path := name, entry := some { Name := nm, IsDir := false }, err := none }]
  | Node.dir nm entries none =>
    { path := name, entry := some { Name := nm, IsDir := true }, err := none } ::
      Node.visitsEntries name entries
  | Node.dir nm entries (some e) =>
    { path := name, entry := some { Name := nm, IsDir := true }, err := none } ::
      { path := name, entry := some { Name := nm, IsDir := true }, err := some (GoError.Store e) } ::
      Node.visitsEntries name entries
/-- The visitor calls for the entries of a directory, one entry after the other. -/
def Node.visitsEntries (name : String) : List Node → List Visit
  | [] => []
  | d1 :: rest => Node.visits (pathpkg.Join [name, d1.Name]) d1 ++ Node.visitsEntries name rest
end

/-- The complete walk of `root` in a store: what a visitor that never stops is called with. -/
def traversal (fsys : FS) (root : String) : List Visit :=
  match fsys.resolve root with
  | Except.error e => [{ path := root, entry := none, err := some (GoError.Store e) }]
  | Except.ok n => Node.visits root n

/-- Run a visitor over a list of calls, stopping at the first call it answers with an error. -/
def runVisits {σ : Type} (fn : WalkDirFunc σ) : List Visit → σ → σ × Option GoError × List Visit
  | [], s => (s, none, [])
  | v :: vs, s =>
    match fn s v.path v.entry v.err with
    | (s1, some e) => (s1, some e, [v])
    | (s1, none) =>
      match runVisits fn vs s1 with
      | (s2, e, t) => (s2, e, v :: t)

/-- A visitor that answers `fs.SkipDir` only when it is handed `fs.SkipDir`. -/
def NoSkipDir {σ : Type} (fn : WalkDirFunc σ) : Prop :=
  ∀ s p en er, er ≠ some GoError.SkipDir → (fn s p en er).2 ≠ some GoError.SkipDir

/-- What every call of a walk looks like: either an entry without an error, or a store error
reported for a directory or for a root that could not be found. -/
def Visit.WellFormed (v : Visit) : Prop :=
  (v.err = none ∧ ∃ en, v.entry = some en) ∨
  ((∃ e, v.err = some (GoError.Store e)) ∧ ∀ en, v.entry = some en → en.IsDir = true)

/-- The visit is of an entry that is not a directory. -/
def Visit.isFile (v : Visit) : Bool :=
  match v.entry with
  | some d => !d.IsDir
  | none => false

/-- The base name of the visited entry (empty when the call carries no entry). -/
def Visit.baseName (v : Visit) : String :=
  match v.entry with
  | some d => d.Name
  | none => ""

/-- The visit is of a non-directory whose base name the regex matches. -/
def Visit.isMatch (rx : Regexp) (v : Visit) : Bool :=
  v.isFile && rx.MatchString v.baseName

/-- The visit is a hit of `Search`: a non-directory whose base name matches the find regex and,
when there is a skip regex, does not match it. -/
def Visit.isHit (rxFind : Regexp) (rxSkip : Option Regexp) (v : Visit) : Bool :=
  v.isFile && rxFind.MatchString v.baseName &&
    (match rxSkip with
     | none => true
     | some rx => !rx.MatchString v.baseName)

/-! ## Sample stores and a sample regex dialect for the worked examples -/

namespace sample

/-- Whether `s` begins with `seg`. -/
def startsWith : List Char → List Char → Bool
  | [], _ => true
  | _ :: _, [] => false
  | a :: seg, b :: s => a == b && startsWith seg s

/-- What is left of `s` behind the first occurrence of `seg`, if there is one. -/
def dropThrough (seg : List Char) : List Char → Option (List Char)
  | [] => if seg.isEmpty then some [] else none
  | c :: s => if startsWith seg (c :: s) then some ((c :: s).drop seg.length) else dropThrough seg s

/-- Whether the segments occur in `s` one after the other. -/
def matchSegments : List (List Char) → List Char → Bool
  | [], _ => true
  | seg :: rest, s =>
    match dropThrough seg s with
    | none => false
    | some s1 => matchSegments rest s1

/-- The punctuation that has a meaning in a pattern. -/
def metaChars : List Char := "\\.*+?()[]|^$".data

/-- Read a pattern made of literal characters, escaped punctuation and `.*` into the literal
segments between the `.*`; `cur` is the segment being read, last character first. -/
def parseSegments : List Char → List Char → Option (List (List Char))
  | [], cur => some [cur.reverse]
  | '\\' :: c :: rest, cur =>
    if metaChars.contains c then parseSegments rest (c :: cur) else none
  | '.' :: '*' :: rest, cur =>
    match parseSegments rest [] with
    | none => none
    | some segs => some (cur.reverse :: segs)
  | c :: rest, cur =>
    if metaChars.contains c then none else parseSegments rest (c :: cur)

/-- The regex that asks for the segments in order, anywhere in the name. -/
def regexOf (segs : List (List Char)) : Regexp :=
  { MatchString := fun s => matchSegments segs s.data }

/-- A sample dialect: the fragment of Go's regex syntax made of literal characters, escaped
punctuation and `.*`, matched unanchored as `MatchString` does.  Every other pattern is turned
down; among the patterns of the examples that is only `(`, which Go turns down as well. -/
def Compile (pattern : String) : Option Regexp :=
  match parseSegments pattern.data [] with
  | none => none
  | some segs => some (regexOf segs)

/-- The root directory of the end-to-end scenarios: the four Go files of the repository. -/
def repoRoot : Node :=
  Node.dir "." [Node.file "fs.go", Node.file "fs_flexible.go", Node.file "fs_test.go",
    Node.file "utils.go"] none

/-- The store of the end-to-end scenarios. -/
def repoFS : FS :=
  { resolve := fun p =>
      if p = "." then Except.ok repoRoot
      else if p = "fs.go" then Except.ok (Node.file "fs.go")
      else if p = "fs_flexible.go" then Except.ok (Node.file "fs_flexible.go")
      else if p = "fs_test.go" then Except.ok (Node.file "fs_test.go")
      else if p = "utils.go" then Except.ok (Node.file "utils.go")
      else Except.error StoreError.NotExist }

/-- A store whose root holds one empty directory and no file. -/
def dirsOnlyFS : FS :=
  { resolve := fun p =>
      if p = "." then Except.ok (Node.dir "." [Node.dir "empty" [] none] none)
      else if p = "empty" then Except.ok (Node.dir "empty" [] none)
      else Except.error StoreError.NotExist }

/-- A store whose root holds a file and, after it, a directory that cannot be read. -/
def lockedFS : FS :=
  { resolve := fun p =>
      if p = "." then
        Except.ok (Node.dir "."
          [Node.file "a.go", Node.dir "locked" [] (some StoreError.Permission)] none)
      else if p = "a.go" then Except.ok (Node.file "a.go")
      else if p = "locked" then Except.ok (Node.dir "locked" [] (some StoreError.Permission))
      else Except.error StoreError.NotExist }

/-- The directory of the end-to-end scenarios as `os.DirFS` presents it: a name below a file
fails with ENOTDIR and a rooted name is invalid. -/
def hostFS : FS :=
  { resolve := fun p =>
      if p = "." then Except.ok repoRoot
      else if p = "fs.go" then Except.ok (Node.file "fs.go")
      else if p = "fs_flexible.go" then Except.ok (Node.file "fs_flexible.go")
      else if p = "fs_test.go" then Except.ok (Node.file "fs_test.go")
      else if p = "utils.go" then Except.ok (Node.file "utils.go")
      else if p = "fs.go/x" then Except.error StoreError.NotDir
      else if p = "/fs.go" then Except.error StoreError.Invalid
      else Except.error StoreError.NotExist }

end sample

/-! ## The patterns of Search, worded as in the specification -/

namespace spec

/-- Strip every leading `.`. -/
def stripLeadingDots : List Char → List Char
  | [] => []
  | c :: cs => if c = '.' then stripLeadingDots cs else c :: cs

/-- The find pattern: `phrase + ".*"` when the stripped extension is empty, and
`phrase + ".*\." + ext` with the stripped extension otherwise. -/
def findPattern (phrase ext : String) : String :=
  if String.mk (stripLeadingDots ext.data) = "" then phrase ++ ".*"
  else phrase ++ ".*\\." ++ String.mk (stripLeadingDots ext.data)

/-- The skip pattern `".*" + ignore + ".*"`. -/
def skipPattern (ignore : String) : String := ".*" ++ ignore ++ ".*"

/-- The skip regex in use: none when `ignore` is empty, the compiled skip pattern otherwise. -/
def skipRegex (ignore : String) (rxIgnore : Regexp) : Option Regexp :=
  if ignore = "" then none else some rxIgnore

end spec

/-! ## filepath.Clean: the buffer invariant and idempotence -/

namespace filepath

theorem endOfElem_tailStr (es : List (List Char)) : endOfElem (tailStr es) = true := by
  cases es <;> simp [tailStr, endOfElem, IsPathSeparator]

theorem cleanLoop_nil (rooted : Bool) (fuel : Nat) (out : List Char) (d : Nat) :
    cleanLoop rooted fuel [] out d = out := by
  cases fuel <;> simp [cleanLoop]

theorem cleanLoop_sep (rooted : Bool) (fuel : Nat) (rest out : List Char) (d : Nat) :
    cleanLoop rooted (fuel + 1) (Separator :: rest) out d = cleanLoop rooted fuel rest out d := by
  simp [cleanLoop, IsPathSeparator]

theorem takeWhile_elem (e tail : List Char) (he : ∀ c ∈ e, IsPathSeparator c = false)
    (ht : endOfElem tail = true) :
    (e ++ tail).takeWhile (fun x => !IsPathSeparator x) = e ∧
    (e ++ tail).dropWhile (fun x => !IsPathSeparator x) = tail := by
  induction e with
  | nil =>
    cases tail with
    | nil => simp
    | cons t ts => simp [endOfElem] at ht; simp [ht]
  | cons c e ih =>
    have hc : IsPathSeparator c = false := he c (by simp)
    have := ih (fun x hx => he x (by simp [hx]))
    simp [hc, this]

theorem endOfElem_append (e tail : List Char) (he : ∀ c ∈ e, IsPathSeparator c = false)
    (ht : endOfElem tail = true) : endOfElem (e ++ tail) = true ↔ e = [] := by
  cases e with
  | nil => simp [ht]
  | cons c e => simp [endOfElem, he c (by simp)]

theorem cleanLoop_elem (rooted : Bool) (fuel : Nat) (e tail out : List Char) (d : Nat)
    (he : IsElem e) (ht : endOfElem tail = true) :
    cleanLoop rooted (fuel + 1) (e ++ tail) out d =
      cleanLoop rooted fuel tail
        (e.reverse ++ (if (rooted && out.length != 1) || (!rooted && out.length != 0)
          then Separator :: out else out)) d := by
  obtain ⟨hne, hns, h1, h2⟩ := he
  cases e with
  | nil => exact absurd rfl hne
  | cons c e1 =>
    have hc : IsPathSeparator c = false := hns c (by simp)
    have hns1 : ∀ x ∈ e1, IsPathSeparator x = false := fun x hx => hns x (by simp [hx])
    have htw := takeWhile_elem (c :: e1) tail hns ht
    have hA : (c == '.' && endOfElem (e1 ++ tail)) = false := by
      by_contra hcon
      simp only [Bool.not_eq_false, Bool.and_eq_true, beq_iff_eq] at hcon
      have := (endOfElem_append e1 tail hns1 ht).1 hcon.2
      exact h1 (by rw [hcon.1, this])
    have hB : (c == '.' && ((e1 ++ tail).head? == some '.' && endOfElem ((e1 ++ tail).drop 1))) = false := by
      by_contra hcon
      simp only [Bool.not_eq_false, Bool.and_eq_true, beq_iff_eq] at hcon
      obtain ⟨hc1, hh, hend⟩ := hcon
      cases e1 with
      | nil =>
        cases tail with
        | nil => simp at hh
        | cons t ts =>
          simp [endOfElem] at ht
          simp at hh
          rw [hh] at ht
          simp [IsPathSeparator, Separator] at ht
      | cons c1 e2 =>
        simp at hh
        simp at hend
        have := (endOfElem_append e2 tail (fun x hx => hns1 x (by simp [hx])) ht).1 hend
        exact h2 (by rw [hc1, hh, this])
    simp only [List.cons_append] at htw hA hB ⊢
    simp only [cleanLoop, hc, hA, hB, htw.1, htw.2]
    simp

theorem renderR_singleton (rooted : Bool) (e : List Char) :
    renderR rooted [e] = e.reverse ++ rootMark rooted := by
  simp [renderR]

theorem renderR_cons_cons (rooted : Bool) (e x : List Char) (xs : List (List Char)) :
    renderR rooted (e :: x :: xs) = e.reverse ++ Separator :: renderR rooted (x :: xs) := by
  simp [renderR]

theorem rootMark_le_renderR (rooted : Bool) (st : List (List Char)) :
    (rootMark rooted).length ≤ (renderR rooted st).length := by
  induction st with
  | nil => simp [renderR]
  | cons e rest ih =>
    cases rest with
    | nil => simp [renderR_singleton]
    | cons r rs =>
      rw [renderR_cons_cons]
      simp only [List.length_append, List.length_cons]
      omega

theorem renderR_cons_length (rooted : Bool) (e : List Char) (rest : List (List Char)) :
    e.length + (renderR rooted rest).length ≤ (renderR rooted (e :: rest)).length := by
  cases rest with
  | nil => simp [renderR_singleton, renderR]
  | cons r rs =>
    rw [renderR_cons_cons]
    simp only [List.length_append, List.length_cons, List.length_reverse]
    omega

theorem renderR_append_ge (rooted : Bool) (es dots : List (List Char)) :
    (renderR rooted dots).length ≤ (renderR rooted (es ++ dots)).length := by
  induction es with
  | nil => simp
  | cons e es ih =>
    have := renderR_cons_length rooted e (es ++ dots)
    simp only [List.cons_append]
    omega

theorem sepNeeded_eq (rooted : Bool) (st : List (List Char)) (hst : ∀ x ∈ st, x ≠ []) :
    ((rooted && (renderR rooted st).length != 1) || (!rooted && (renderR rooted st).length != 0))
      = !st.isEmpty := by
  cases st with
  | nil => cases rooted <;> simp [renderR, rootMark]
  | cons e rest =>
    have he : e ≠ [] := hst e (by simp)
    have hl : 0 < e.length := List.length_pos.2 he
    have h1 := renderR_cons_length rooted e rest
    have h2 := rootMark_le_renderR rooted rest
    cases rooted
    · have h3 : (renderR false (e :: rest)).length ≠ 0 := by omega
      simp [h3]
    · simp only [rootMark, if_true, List.length_singleton] at h2
      have h3 : (renderR true (e :: rest)).length ≠ 1 := by omega
      simp [h3]

theorem push_eq (rooted : Bool) (e : List Char) (st : List (List Char))
    (hst : ∀ x ∈ st, x ≠ []) :
    e.reverse ++ (if (rooted && (renderR rooted st).length != 1) ||
        (!rooted && (renderR rooted st).length != 0)
      then Separator :: renderR rooted st else renderR rooted st) = renderR rooted (e :: st) := by
  rw [sepNeeded_eq rooted st hst]
  cases st with
  | nil => simp [renderR]
  | cons x xs => simp [renderR]

theorem unwind_cons_pos (d : Nat) (top c : Char) (out : List Char)
    (h1 : d < out.length + 1) (h2 : IsPathSeparator top = false) :
    unwind d top (c :: out) = unwind d c out := by
  simp [unwind, h1, h2]

theorem unwind_A (d : Nat) (t : List Char) (hd : d ≤ t.length) :
    ∀ (er : List Char) (top : Char), (∀ c ∈ top :: er, IsPathSeparator c = false) →
      unwind d top (er ++ Separator :: t) = t := by
  intro er
  induction er with
  | nil =>
    intro top h
    have ht : IsPathSeparator top = false := h top (by simp)
    rw [List.nil_append, unwind_cons_pos d top Separator t (by omega) ht]
    cases t with
    | nil => simp [unwind]
    | cons c t => simp [unwind, IsPathSeparator]
  | cons x er ih =>
    intro top h
    have ht : IsPathSeparator top = false := h top (by simp)
    rw [List.cons_append, unwind_cons_pos d top x _ (by simp; omega) ht]
    exact ih x (fun c hc => h c (List.mem_cons_of_mem _ hc))

theorem unwind_B (d : Nat) (tail : List Char) (hd : tail.length = d) :
    ∀ (er : List Char) (top : Char), (∀ c ∈ top :: er, IsPathSeparator c = false) →
      unwind d top (er ++ tail) = tail := by
  intro er
  induction er with
  | nil =>
    intro top _
    cases tail with
    | nil => simp [unwind]
    | cons c t =>
      have : ¬ d < t.length + 1 := by simp at hd; omega
      simp [unwind, this]
  | cons x er ih =>
    intro top h
    have ht : IsPathSeparator top = false := h top (by simp)
    rw [List.cons_append, unwind_cons_pos d top x _ (by simp; omega) ht]
    exact ih x (fun c hc => h c (List.mem_cons_of_mem _ hc))

theorem Valid.nonempty {rooted : Bool} {st : List (List Char)} {d : Nat}
    (h : Valid rooted st d) : ∀ x ∈ st, x ≠ [] := by
  obtain ⟨es, k, rfl, hes, _, _⟩ := h
  intro x hx
  rcases List.mem_append.1 hx with h1 | h1
  · exact (hes x h1).1
  · rw [List.eq_of_mem_replicate h1]; simp [dotdotElem]

theorem isElem_takeWhile (c : Char) (cs : List Char) (hc : IsPathSeparator c = false)
    (hA : (c == '.' && endOfElem cs) = false)
    (hB : (c == '.' && (cs.head? == some '.' && endOfElem (cs.drop 1))) = false) :
    IsElem ((c :: cs).takeWhile (fun x => !IsPathSeparator x)) := by
  have h0 : (c :: cs).takeWhile (fun x => !IsPathSeparator x)
      = c :: cs.takeWhile (fun x => !IsPathSeparator x) := by simp [hc]
  refine ⟨by rw [h0]; simp, ?_, ?_, ?_⟩
  · intro x hx
    have := List.mem_takeWhile_imp hx
    simpa using this
  · rw [h0]
    intro h
    simp only [List.cons.injEq] at h
    obtain ⟨h1, h2⟩ := h
    have : endOfElem cs = true := by
      cases cs with
      | nil => rfl
      | cons y ys =>
        by_cases hy : IsPathSeparator y = true
        · simpa [endOfElem] using hy
        · simp [hy] at h2
    simp [h1, this] at hA
  · rw [h0]
    intro h
    simp only [List.cons.injEq] at h
    obtain ⟨h1, h2⟩ := h
    cases cs with
    | nil => simp at h2
    | cons y ys =>
      by_cases hy : IsPathSeparator y = true
      · simp [hy] at h2
      · simp only [Bool.not_eq_true] at hy
        simp only [hy, Bool.not_false, List.takeWhile_cons_of_pos, List.cons.injEq] at h2
        obtain ⟨h3, h4⟩ := h2
        have : endOfElem ys = true := by
          cases ys with
          | nil => rfl
          | cons z zs =>
            by_cases hz : IsPathSeparator z = true
            · simpa [endOfElem] using hz
            · simp [hz] at h4
        simp [h1, h3, this] at hB

theorem cleanLoop_valid (rooted : Bool) : ∀ (fuel : Nat) (rest : List Char)
    (st : List (List Char)) (d : Nat), Valid rooted st d →
    ∃ st1 d1, Valid rooted st1 d1 ∧
      cleanLoop rooted fuel rest (renderR rooted st) d = renderR rooted st1 := by
  intro fuel
  induction fuel with
  | zero => intro rest st d h; exact ⟨st, d, h, by simp [cleanLoop]⟩
  | succ fuel ih =>
    intro rest st d h
    cases rest with
    | nil => exact ⟨st, d, h, by simp [cleanLoop]⟩
    | cons c cs =>
      by_cases hc : IsPathSeparator c = true
      · simp only [cleanLoop, hc, if_true]
        exact ih cs st d h
      · simp only [Bool.not_eq_true] at hc
        by_cases hA : (c == '.' && endOfElem cs) = true
        · simp only [cleanLoop, hc, hA, if_true, Bool.false_eq_true, if_false]
          exact ih cs st d h
        · simp only [Bool.not_eq_true] at hA
          by_cases hB : (c == '.' && (cs.head? == some '.' && endOfElem (cs.drop 1))) = true
          · simp only [cleanLoop, hc, hA, hB, if_true, Bool.false_eq_true, if_false]
            obtain ⟨es, k, hst, hes, hk, hd⟩ := h
            cases es with
            | nil =>
              have hlen : ¬ (renderR rooted st).length > d := by
                rw [hst, hd]; simp
              simp only [hlen, if_false]
              cases rooted with
              | true =>
                simp only [Bool.not_true, Bool.false_eq_true, if_false]
                exact ih _ st d ⟨[], k, hst, hes, hk, hd⟩
              | false =>
                simp only [Bool.not_false, if_true]
                have hpush : ('.' :: '.' :: if (renderR false st).length > 0
                      then Separator :: renderR false st else renderR false st)
                    = renderR false (dotdotElem :: st) := by
                  rw [hst]
                  cases k with
                  | zero => simp [renderR, rootMark, dotdotElem]
                  | succ k =>
                    have := renderR_cons_length false dotdotElem (List.replicate k dotdotElem)
                    have h2 : 0 < (renderR false (List.replicate (k + 1) dotdotElem)).length := by
                      rw [List.replicate_succ]
                      simp [dotdotElem] at this ⊢
                      omega
                    simp only [List.nil_append, h2, if_true]
                    simp [List.replicate_succ, renderR, dotdotElem]
                have hlen2 : (if (renderR false st).length > 0
                      then Separator :: renderR false st else renderR false st).length + 2
                    = (renderR false (dotdotElem :: st)).length := by
                  rw [← hpush]; simp
                rw [hlen2, hpush]
                refine ih _ (dotdotElem :: st) _ ⟨[], k + 1, ?_, by simp, by simp, ?_⟩
                · rw [hst]; simp [List.replicate_succ]
                · rw [hst]; simp [List.replicate_succ]
            | cons e es1 =>
              have he : IsElem e := hes e (by simp)
              have hlen : (renderR rooted st).length > d := by
                rw [hst, hd]
                have h1 := renderR_cons_length rooted e (es1 ++ List.replicate k dotdotElem)
                have h2 := renderR_append_ge rooted es1 (List.replicate k dotdotElem)
                have h3 : 0 < e.length := List.length_pos.2 he.1
                simp only [List.cons_append]
                omega
              simp only [hlen, if_true]
              obtain ⟨top, er, her⟩ : ∃ top er, e.reverse = top :: er := by
                cases hr : e.reverse with
                | nil => exact absurd (List.reverse_eq_nil_iff.1 hr) he.1
                | cons a b => exact ⟨a, b, rfl⟩
              have hns : ∀ x ∈ top :: er, IsPathSeparator x = false := by
                intro x hx
                rw [← her] at hx
                exact he.2.1 x (List.mem_reverse.1 hx)
              have hvalid : Valid rooted (es1 ++ List.replicate k dotdotElem) d :=
                ⟨es1, k, rfl, fun x hx => hes x (List.mem_cons_of_mem _ hx), hk, hd⟩
              cases hrest : es1 ++ List.replicate k dotdotElem with
              | nil =>
                have hk0 : k = 0 := by
                  have := (List.append_eq_nil.1 hrest).2
                  cases k with
                  | zero => rfl
                  | succ k => simp [List.replicate_succ] at this
                have hout : renderR rooted st = top :: (er ++ rootMark rooted) := by
                  rw [hst, List.cons_append, hrest, renderR_singleton, her]; rfl
                rw [hout]
                simp only
                rw [unwind_B d (rootMark rooted) (by rw [hd, hk0]; simp [renderR]) er top hns]
                have := ih (cs.drop 1) [] d (by rw [← hrest]; exact hvalid)
                simpa [renderR] using this
              | cons x xs =>
                have hout : renderR rooted st
                    = top :: (er ++ Separator :: renderR rooted (x :: xs)) := by
                  rw [hst, List.cons_append, hrest, renderR_cons_cons, her]; rfl
                rw [hout]
                simp only
                rw [unwind_A d (renderR rooted (x :: xs))
                  (by rw [hd, ← hrest]; exact renderR_append_ge rooted es1 _) er top hns]
                exact ih (cs.drop 1) (x :: xs) d (by rw [← hrest]; exact hvalid)
          · simp only [Bool.not_eq_true] at hB
            simp only [cleanLoop, hc, hA, hB, Bool.false_eq_true, if_false]
            have hel := isElem_takeWhile c cs hc hA hB
            rw [push_eq rooted _ st h.nonempty]
            obtain ⟨es, k, hst, hes, hk, hd⟩ := h
            refine ih _ (_ :: st) d ⟨_ :: es, k, by rw [hst]; rfl, ?_, hk, hd⟩
            intro x hx
            rcases List.mem_cons.1 hx with h1 | h1
            · rw [h1]; exact hel
            · exact hes x h1

theorem tailStr_append (xs : List (List Char)) (e : List Char) :
    tailStr (xs ++ [e]) = tailStr xs ++ Separator :: e := by
  induction xs with
  | nil => simp [tailStr]
  | cons x xs ih => simp [tailStr, ih]

theorem joined_append (xs : List (List Char)) (x e : List Char) :
    joined ((x :: xs) ++ [e]) = joined (x :: xs) ++ Separator :: e := by
  simp [joined, tailStr_append]

theorem renderR_reverse (rooted : Bool) (st : List (List Char)) :
    (renderR rooted st).reverse = rootMark rooted ++ joined st.reverse := by
  induction st with
  | nil => cases rooted <;> simp [renderR, rootMark, joined]
  | cons e rest ih =>
    cases rest with
    | nil => cases rooted <;> simp [renderR, rootMark, joined, tailStr]
    | cons x xs =>
      rw [renderR_cons_cons, List.reverse_append, List.reverse_cons, ih, List.reverse_reverse]
      have : (e :: x :: xs).reverse = (x :: xs).reverse ++ [e] := by simp
      rw [this]
      cases hr : (x :: xs).reverse with
      | nil => simp at hr
      | cons y ys => rw [joined_append]; simp

theorem cleanLoop_elems (rooted : Bool) : ∀ (es : List (List Char)) (e : List Char)
    (st : List (List Char)) (d fuel : Nat), IsElem e → (∀ x ∈ es, IsElem x) →
    (∀ x ∈ st, x ≠ []) → (e ++ tailStr es).length ≤ fuel →
    cleanLoop rooted fuel (e ++ tailStr es) (renderR rooted st) d
      = renderR rooted (es.reverse ++ e :: st) := by
  intro es
  induction es with
  | nil =>
    intro e st d fuel he _ hst hf
    have hl : 0 < e.length := List.length_pos.2 he.1
    obtain ⟨f, rfl⟩ : ∃ f, fuel = f + 1 := ⟨fuel - 1, by simp at hf; omega⟩
    rw [cleanLoop_elem rooted f e (tailStr []) _ d he (endOfElem_tailStr _), push_eq rooted e st hst]
    simp [tailStr, cleanLoop_nil]
  | cons e2 es ih =>
    intro e st d fuel he hes hst hf
    have hl : 0 < e.length := List.length_pos.2 he.1
    simp only [tailStr, List.length_append, List.length_cons] at hf
    obtain ⟨f, rfl⟩ : ∃ f, fuel = f + 2 := ⟨fuel - 2, by omega⟩
    rw [cleanLoop_elem rooted (f + 1) e (tailStr (e2 :: es)) _ d he (endOfElem_tailStr _),
      push_eq rooted e st hst]
    simp only [tailStr]
    rw [cleanLoop_sep]
    rw [ih e2 (e :: st) d f (hes e2 (by simp)) (fun x hx => hes x (List.mem_cons_of_mem _ hx))
      (by intro x hx; rcases List.mem_cons.1 hx with h | h
          · rw [h]; exact he.1
          · exact hst x h)
      (by simp only [List.length_append]; omega)]
    simp

theorem cleanLoop_dotdot (fuel : Nat) (tail out : List Char) (d : Nat)
    (ht : endOfElem tail = true) (hd : ¬ out.length > d) :
    cleanLoop false (fuel + 1) ('.' :: '.' :: tail) out d =
      cleanLoop false fuel tail
        ('.' :: '.' :: (if out.length > 0 then Separator :: out else out))
        ((if out.length > 0 then Separator :: out else out).length + 2) := by
  have h1 : IsPathSeparator '.' = false := by decide
  have h2 : ('.' == '.' && endOfElem ('.' :: tail)) = false := by simp [endOfElem, h1]
  have h3 : ('.' == '.' && (('.' :: tail).head? == some '.' && endOfElem tail))
      = true := by simp [ht]
  simp only [cleanLoop, h1, h2, hd, Bool.false_eq_true, if_false, if_true, Bool.not_false,
    List.drop_succ_cons, List.drop_zero, h3]

theorem renderR_dotdot_push (st : List (List Char)) (hst : ∀ x ∈ st, x ≠ []) :
    ('.' :: '.' :: (if (renderR false st).length > 0 then Separator :: renderR false st
      else renderR false st)) = renderR false (dotdotElem :: st) := by
  cases st with
  | nil => simp [renderR, rootMark, dotdotElem]
  | cons x xs =>
    have h1 := renderR_cons_length false x xs
    have h2 : 0 < x.length := List.length_pos.2 (hst x (by simp))
    have h3 : 0 < (renderR false (x :: xs)).length := by omega
    simp only [h3, if_true]
    simp [renderR, dotdotElem]

theorem dotdotElem_append (tail : List Char) : dotdotElem ++ tail = '.' :: '.' :: tail := rfl

theorem tailStr_cons (e : List Char) (rest : List (List Char)) :
    tailStr (e :: rest) = Separator :: (e ++ tailStr rest) := rfl

theorem replicate_dotdot_ne (i : Nat) : ∀ x ∈ List.replicate i dotdotElem, x ≠ [] := by
  intro x hx; rw [List.eq_of_mem_replicate hx]; simp [dotdotElem]

theorem cleanLoop_dotdot_push (fuel i : Nat) (tail : List Char) (ht : endOfElem tail = true) :
    cleanLoop false (fuel + 1) (dotdotElem ++ tail) (renderR false (List.replicate i dotdotElem))
        (renderR false (List.replicate i dotdotElem)).length
      = cleanLoop false fuel tail (renderR false (List.replicate (i + 1) dotdotElem))
        (renderR false (List.replicate (i + 1) dotdotElem)).length := by
  rw [dotdotElem_append, cleanLoop_dotdot fuel _ _ _ ht (by simp)]
  have hp := renderR_dotdot_push (List.replicate i dotdotElem) (replicate_dotdot_ne i)
  have hl : (if (renderR false (List.replicate i dotdotElem)).length > 0
        then Separator :: renderR false (List.replicate i dotdotElem)
        else renderR false (List.replicate i dotdotElem)).length + 2
      = (renderR false (dotdotElem :: List.replicate i dotdotElem)).length := by
    rw [← hp]; simp
  rw [hl, hp, List.replicate_succ]

theorem cleanLoop_dots (es : List (List Char)) (hes : ∀ x ∈ es, IsElem x) :
    ∀ (j i fuel : Nat),
    (dotdotElem ++ tailStr (List.replicate j dotdotElem ++ es)).length ≤ fuel →
    cleanLoop false fuel (dotdotElem ++ tailStr (List.replicate j dotdotElem ++ es))
        (renderR false (List.replicate i dotdotElem))
        (renderR false (List.replicate i dotdotElem)).length
      = renderR false (es.reverse ++ List.replicate (i + 1 + j) dotdotElem) := by
  intro j
  induction j with
  | zero =>
    intro i fuel hf
    simp only [List.replicate_zero, List.nil_append] at hf ⊢
    have hdl : dotdotElem.length = 2 := rfl
    rw [List.length_append, hdl] at hf
    obtain ⟨f, rfl⟩ : ∃ f, fuel = f + 1 := ⟨fuel - 1, by omega⟩
    rw [cleanLoop_dotdot_push f i _ (endOfElem_tailStr _)]
    cases es with
    | nil => simp [tailStr, cleanLoop_nil]
    | cons e es1 =>
      rw [tailStr_cons] at hf ⊢
      simp only [List.length_cons] at hf
      obtain ⟨g, rfl⟩ : ∃ g, f = g + 1 := ⟨f - 1, by omega⟩
      rw [cleanLoop_sep]
      rw [cleanLoop_elems false es1 e (List.replicate (i + 1) dotdotElem) _ g (hes e (by simp))
        (fun x hx => hes x (List.mem_cons_of_mem _ hx)) (replicate_dotdot_ne _) (by omega)]
      simp
  | succ j ih =>
    intro i fuel hf
    have hdl : dotdotElem.length = 2 := rfl
    rw [List.replicate_succ, List.cons_append, tailStr_cons] at hf ⊢
    rw [List.length_append, hdl, List.length_cons] at hf
    obtain ⟨f, rfl⟩ : ∃ f, fuel = f + 2 := ⟨fuel - 2, by omega⟩
    rw [cleanLoop_dotdot_push (f + 1) i _ (by simp [endOfElem, IsPathSeparator]), cleanLoop_sep]
    rw [ih (i + 1) f (by omega)]
    have harith : i + 1 + 1 + j = i + 1 + (j + 1) := by omega
    rw [harith]

theorem cleanChars_singleDot : cleanChars ['.'] = ['.'] := by decide

theorem cleanChars_idem (p : List Char) : cleanChars (cleanChars p) = cleanChars p := by
  cases p with
  | nil => exact cleanChars_singleDot
  | cons c cs =>
    -- the first pass leaves a well-formed buffer
    obtain ⟨rooted, st, d, hv, hout⟩ : ∃ rooted st d, Valid rooted st d ∧
        cleanChars (c :: cs) = (if (renderR rooted st).length == 0 then ['.']
          else (renderR rooted st).reverse) := by
      by_cases hc : IsPathSeparator c = true
      · obtain ⟨st, d, hv, h⟩ := cleanLoop_valid true (c :: cs).length cs [] 1
          ⟨[], 0, rfl, by simp, by simp, by simp [renderR, rootMark]⟩
        refine ⟨true, st, d, hv, ?_⟩
        simp only [cleanChars, hc, if_true]
        have : renderR true [] = [Separator] := rfl
        rw [this] at h
        rw [h]
        split <;> simp
      · simp only [Bool.not_eq_true] at hc
        obtain ⟨st, d, hv, h⟩ := cleanLoop_valid false (c :: cs).length (c :: cs) [] 0
          ⟨[], 0, rfl, by simp, by simp, by simp [renderR, rootMark]⟩
        refine ⟨false, st, d, hv, ?_⟩
        simp only [cleanChars, hc, Bool.false_eq_true, if_false]
        have : renderR false [] = [] := rfl
        rw [this] at h
        rw [h]
        split <;> simp
    rw [hout]
    obtain ⟨es, k, hst, hes, hk, hd⟩ := hv
    have hesr : ∀ x ∈ es.reverse, IsElem x := fun x hx => hes x (List.mem_reverse.1 hx)
    cases rooted with
    | true =>
      have hk0 : k = 0 := hk rfl
      subst hk0
      simp only [List.replicate_zero, List.append_nil] at hst
      subst hst
      have hlen : ¬ (renderR true st).length = 0 := by
        have := rootMark_le_renderR true st
        simp [rootMark] at this
        omega
      simp only [beq_iff_eq, hlen, if_false]
      rw [renderR_reverse]
      have hroot : rootMark true = [Separator] := rfl
      rw [hroot]
      simp only [List.singleton_append, cleanChars]
      have hsep : IsPathSeparator Separator = true := by decide
      simp only [hsep, if_true]
      have hres : cleanLoop true (Separator :: joined st.reverse).length (joined st.reverse)
          [Separator] 1 = renderR true st := by
        cases hr : st.reverse with
        | nil =>
          have : st = [] := List.reverse_eq_nil_iff.1 hr
          subst this
          simp [joined, cleanLoop_nil, renderR, rootMark]
        | cons e rest =>
          have hall : ∀ x ∈ e :: rest, IsElem x := by rw [← hr]; exact hesr
          have := cleanLoop_elems true rest e [] 1 (Separator :: joined (e :: rest)).length
            (hall e (by simp)) (fun x hx => hall x (List.mem_cons_of_mem _ hx)) (by simp)
            (by simp [joined])
          simp only [joined] at this ⊢
          rw [show renderR true [] = [Separator] from rfl] at this
          rw [this]
          have : rest.reverse ++ [e] = st := by
            have := congrArg List.reverse hr
            simpa using this.symm
          rw [this]
      rw [hres]
      simp only [beq_iff_eq, hlen, if_false]
      rw [renderR_reverse, hroot]
      simp
    | false =>
      by_cases hlen : (renderR false st).length = 0
      · simp only [beq_iff_eq, hlen, if_true]
        exact cleanChars_singleDot
      · simp only [beq_iff_eq, hlen, if_false]
        rw [renderR_reverse]
        have hroot : rootMark false = [] := rfl
        rw [hroot, List.nil_append]
        have hstr : st.reverse = List.replicate k dotdotElem ++ es.reverse := by
          rw [hst]; simp
        have hrev : (List.replicate k dotdotElem ++ es.reverse).reverse = st := by
          rw [← hstr]; simp
        -- the second pass rebuilds the same buffer
        have hres : ∀ (c1 : Char) (cs1 : List Char), joined st.reverse = c1 :: cs1 →
            IsPathSeparator c1 = false ∧
            cleanLoop false (c1 :: cs1).length (c1 :: cs1) [] 0 = renderR false st := by
          intro c1 cs1 hj
          rw [← hj, hstr]
          cases k with
          | zero =>
            simp only [List.replicate_zero, List.nil_append] at hstr hrev ⊢
            cases hr : es.reverse with
            | nil =>
              rw [hr] at hstr
              have : st = [] := List.reverse_eq_nil_iff.1 hstr
              subst this
              simp [renderR, rootMark] at hlen
            | cons e rest =>
              have hall : ∀ x ∈ e :: rest, IsElem x := by rw [← hr]; exact hesr
              have he := hall e (by simp)
              constructor
              · rw [hstr, hr] at hj
                simp only [joined] at hj
                cases e with
                | nil => exact absurd rfl he.1
                | cons a b =>
                  simp only [List.cons_append, List.cons.injEq] at hj
                  rw [← hj.1]
                  exact he.2.1 a (by simp)
              · have := cleanLoop_elems false rest e [] 0 (joined (e :: rest)).length he
                  (fun x hx => hall x (List.mem_cons_of_mem _ hx)) (by simp) (by simp [joined])
                simp only [joined] at this ⊢
                rw [show renderR false [] = [] from rfl] at this
                rw [this]
                rw [hr] at hrev
                have : rest.reverse ++ [e] = st := by simpa using hrev
                rw [this]
          | succ k =>
            constructor
            · rw [hstr] at hj
              simp only [List.replicate_succ, List.cons_append, joined, dotdotElem,
                List.cons.injEq] at hj
              rw [← hj.1]; decide
            · have := cleanLoop_dots es.reverse hesr k 0
                (joined (List.replicate (k + 1) dotdotElem ++ es.reverse)).length
                (by simp [joined, List.replicate_succ])
              simp only [List.replicate_zero] at this
              rw [show renderR false [] = [] from rfl] at this
              simp only [List.replicate_succ, List.cons_append, joined] at this ⊢
              simp only [List.length_nil] at this
              rw [this]
              simp only [List.reverse_reverse]
              rw [hst]
              congr 2
              have : 0 + 1 + k = k + 1 := by omega
              rw [this, List.replicate_succ]
        cases hj : joined st.reverse with
        | nil =>
          have := congrArg List.length (renderR_reverse false st)
          rw [hj] at this
          simp [rootMark] at this
          exact absurd (by rw [this]; rfl) hlen
        | cons c1 cs1 =>
          obtain ⟨hc1, hl⟩ := hres c1 cs1 hj
          simp only [cleanChars, hc1, Bool.false_eq_true, if_false]
          rw [hl]
          simp only [beq_iff_eq, hlen, if_false]
          rw [renderR_reverse, hroot, List.nil_append, hj]

theorem joined_eq_intercalate : ∀ (elems : List (List Char)),
    joined elems = List.intercalate [Separator] elems
  | [] => by simp [joined, List.intercalate]
  | [e] => by simp [joined, tailStr, List.intercalate]
  | e :: e2 :: rest => by
    have ih := joined_eq_intercalate (e2 :: rest)
    simp only [joined, tailStr] at ih ⊢
    rw [ih]
    simp [List.intercalate]

/-- A cleaned path is a run of non-empty elements free of separators, with one separator
between neighbours, behind one leading separator when the path is rooted. -/
theorem cleanChars_normalForm (p : List Char) :
    ∃ (rooted : Bool) (elems : List (List Char)),
      (rooted = true ∨ elems ≠ []) ∧
      (∀ e ∈ elems, e ≠ [] ∧ ∀ c ∈ e, IsPathSeparator c = false) ∧
      cleanChars p = rootMark rooted ++ joined elems := by
  have hdot : ∃ (rooted : Bool) (elems : List (List Char)),
      (rooted = true ∨ elems ≠ []) ∧
      (∀ e ∈ elems, e ≠ [] ∧ ∀ c ∈ e, IsPathSeparator c = false) ∧
      ['.'] = rootMark rooted ++ joined elems := by
    refine ⟨false, [['.']], Or.inr (by simp), ?_, by simp [rootMark, joined, tailStr]⟩
    intro e he
    simp only [List.mem_singleton] at he
    subst he
    exact ⟨by simp, by intro c hc; simp only [List.mem_singleton] at hc; subst hc; decide⟩
  cases p with
  | nil => exact hdot
  | cons c cs =>
    obtain ⟨rooted, st, d, hv, hout⟩ : ∃ rooted st d, Valid rooted st d ∧
        cleanChars (c :: cs) = (if (renderR rooted st).length == 0 then ['.']
          else (renderR rooted st).reverse) := by
      by_cases hc : IsPathSeparator c = true
      · obtain ⟨st, d, hv, h⟩ := cleanLoop_valid true (c :: cs).length cs [] 1
          ⟨[], 0, rfl, by simp, by simp, by simp [renderR, rootMark]⟩
        refine ⟨true, st, d, hv, ?_⟩
        simp only [cleanChars, hc, if_true]
        have : renderR true [] = [Separator] := rfl
        rw [this] at h
        rw [h]
        split <;> simp
      · simp only [Bool.not_eq_true] at hc
        obtain ⟨st, d, hv, h⟩ := cleanLoop_valid false (c :: cs).length (c :: cs) [] 0
          ⟨[], 0, rfl, by simp, by simp, by simp [renderR, rootMark]⟩
        refine ⟨false, st, d, hv, ?_⟩
        simp only [cleanChars, hc, Bool.false_eq_true, if_false]
        have : renderR false [] = [] := rfl
        rw [this] at h
        rw [h]
        split <;> simp
    rw [hout]
    by_cases hlen : (renderR rooted st).length = 0
    · simp only [beq_iff_eq, hlen, if_true]
      exact hdot
    · simp only [beq_iff_eq, hlen, if_false]
      refine ⟨rooted, st.reverse, ?_, ?_, renderR_reverse rooted st⟩
      · cases rooted with
        | true => exact Or.inl rfl
        | false =>
          right
          intro h
          have : st = [] := List.reverse_eq_nil_iff.1 h
          subst this
          exact hlen (by simp [renderR, rootMark])
      · intro e he
        have he2 : e ∈ st := List.mem_reverse.1 he
        refine ⟨hv.nonempty e he2, ?_⟩
        obtain ⟨es, k, hst, hes, _, _⟩ := hv
        rw [hst] at he2
        rcases List.mem_append.1 he2 with h1 | h1
        · exact (hes e h1).2.1
        · rw [List.eq_of_mem_replicate h1]
          intro c hc
          simp only [dotdotElem, List.mem_cons, List.mem_singleton, List.not_mem_nil,
            or_false, or_self] at hc
          subst hc
          decide

end filepath

/-! ## filepath.Clean: the fuel is never used up -/

namespace filepath

theorem length_dropWhile_le (q : Char → Bool) (l : List Char) :
    (l.dropWhile q).length ≤ l.length := by
  induction l with
  | nil => simp
  | cons a l ih =>
    by_cases h : q a = true
    · rw [List.dropWhile_cons_of_pos h]; simp only [List.length_cons]; omega
    · rw [List.dropWhile_cons_of_neg h]

/-- Any two amounts of fuel that cover the unread rest of the path give the same result: each
round reads at least one byte, so the loop ends because the path does, not the fuel. -/
theorem cleanLoop_fuel (rooted : Bool) : ∀ (f1 f2 : Nat) (rest out : List Char) (d : Nat),
    rest.length ≤ f1 → rest.length ≤ f2 →
    cleanLoop rooted f1 rest out d = cleanLoop rooted f2 rest out d := by
  intro f1
  induction f1 with
  | zero =>
    intro f2 rest out d h1 _
    have : rest = [] := List.length_eq_zero.1 (by omega)
    subst this
    rw [cleanLoop_nil, cleanLoop_nil]
  | succ f1 ih =>
    intro f2 rest out d h1 h2
    cases rest with
    | nil => rw [cleanLoop_nil, cleanLoop_nil]
    | cons c cs =>
      simp only [List.length_cons] at h1 h2
      obtain ⟨g, rfl⟩ : ∃ g, f2 = g + 1 := ⟨f2 - 1, by omega⟩
      have hdrop : (cs.drop 1).length ≤ cs.length := by simp
      by_cases hc : IsPathSeparator c = true
      · simp only [cleanLoop, hc, if_true]
        exact ih g cs out d (by omega) (by omega)
      · simp only [Bool.not_eq_true] at hc
        have hdw : ((c :: cs).dropWhile (fun x => !IsPathSeparator x)).length ≤ cs.length := by
          rw [List.dropWhile_cons_of_pos (by simp [hc])]
          exact length_dropWhile_le _ cs
        simp only [cleanLoop, hc, Bool.false_eq_true, if_false]
        split
        · exact ih g cs out d (by omega) (by omega)
        · split
          · split
            · split
              · exact ih g _ _ d (by omega) (by omega)
              · exact ih g _ _ d (by omega) (by omega)
            · split
              · exact ih g _ _ _ (by omega) (by omega)
              · exact ih g _ _ d (by omega) (by omega)
          · exact ih g _ _ d (by omega) (by omega)

end filepath

/-! ## fs.WalkDir as a run over the complete walk -/

theorem runVisits_cons_stop {σ : Type} (fn : WalkDirFunc σ) (v : Visit) (vs : List Visit)
    (s s1 : σ) (e : GoError) (h : fn s v.path v.entry v.err = (s1, some e)) :
    runVisits fn (v :: vs) s = (s1, some e, [v]) := by
  simp only [runVisits, h]

theorem runVisits_cons_go {σ : Type} (fn : WalkDirFunc σ) (v : Visit) (vs : List Visit)
    (s s1 : σ) (h : fn s v.path v.entry v.err = (s1, none)) :
    runVisits fn (v :: vs) s =
      ((runVisits fn vs s1).1, (runVisits fn vs s1).2.1, v :: (runVisits fn vs s1).2.2) := by
  simp only [runVisits, h]

theorem runVisits_append {σ : Type} (fn : WalkDirFunc σ) (a b : List Visit) :
    ∀ s, runVisits fn (a ++ b) s =
      if (runVisits fn a s).2.1 = none then
        ((runVisits fn b (runVisits fn a s).1).1, (runVisits fn b (runVisits fn a s).1).2.1,
          (runVisits fn a s).2.2 ++ (runVisits fn b (runVisits fn a s).1).2.2)
      else runVisits fn a s := by
  induction a with
  | nil => intro s; simp [runVisits]
  | cons v vs ih =>
    intro s
    rcases h : fn s v.path v.entry v.err with ⟨s1, _ | e⟩
    · rw [List.cons_append, runVisits_cons_go fn v _ s s1 h, runVisits_cons_go fn v _ s s1 h,
        ih s1]
      by_cases h2 : (runVisits fn vs s1).2.1 = none
      · simp [h2]
      · simp [h2]
    · rw [List.cons_append, runVisits_cons_stop fn v _ s s1 e h,
        runVisits_cons_stop fn v _ s s1 e h]
      simp

mutual
theorem visits_wellFormed : ∀ (d : Node) (name : String), ∀ v ∈ Node.visits name d, v.WellFormed
  | Node.file nm, name, v, hv => by
    simp only [Node.visits, List.mem_singleton] at hv
    subst hv
    exact Or.inl ⟨rfl, _, rfl⟩
  | Node.dir nm entries none, name, v, hv => by
    simp only [Node.visits, List.mem_cons] at hv
    rcases hv with hv | hv
    · subst hv; exact Or.inl ⟨rfl, _, rfl⟩
    · exact visitsEntries_wellFormed entries name v hv
  | Node.dir nm entries (some e), name, v, hv => by
    simp only [Node.visits, List.mem_cons] at hv
    rcases hv with hv | hv | hv
    · subst hv; exact Or.inl ⟨rfl, _, rfl⟩
    · subst hv
      refine Or.inr ⟨⟨e, rfl⟩, ?_⟩
      intro en hen
      simp only [Option.some.injEq] at hen
      rw [← hen]
    · exact visitsEntries_wellFormed entries name v hv
theorem visitsEntries_wellFormed : ∀ (l : List Node) (name : String),
    ∀ v ∈ Node.visitsEntries name l, v.WellFormed
  | [], name, v, hv => by simp [Node.visitsEntries] at hv
  | d1 :: rest, name, v, hv => by
    simp only [Node.visitsEntries, List.mem_append] at hv
    rcases hv with hv | hv
    · exact visits_wellFormed d1 _ v hv
    · exact visitsEntries_wellFormed rest name v hv
end

theorem traversal_wellFormed (fsys : FS) (root : String) :
    ∀ v ∈ traversal fsys root, v.WellFormed := by
  intro v hv
  unfold traversal at hv
  cases h : fsys.resolve root with
  | error e =>
    rw [h] at hv
    simp only [List.mem_singleton] at hv
    subst hv
    exact Or.inr ⟨⟨e, rfl⟩, by simp⟩
  | ok n =>
    rw [h] at hv
    exact visits_wellFormed n root v hv

theorem Visit.WellFormed.err_ne_skipDir {v : Visit} (h : v.WellFormed) :
    v.err ≠ some GoError.SkipDir := by
  rcases h with ⟨h, _⟩ | ⟨⟨e, h⟩, _⟩ <;> simp [h]

theorem runVisits_err_ne_skipDir {σ : Type} (fn : WalkDirFunc σ) (hfn : NoSkipDir fn) :
    ∀ (vs : List Visit) (s : σ), (∀ v ∈ vs, v.WellFormed) →
      (runVisits fn vs s).2.1 ≠ some GoError.SkipDir := by
  intro vs
  induction vs with
  | nil => intro s _; simp [runVisits]
  | cons v vs ih =>
    intro s hw
    rcases h : fn s v.path v.entry v.err with ⟨s1, _ | e⟩
    · rw [runVisits_cons_go fn v vs s s1 h]
      exact ih s1 (fun x hx => hw x (List.mem_cons_of_mem _ hx))
    · rw [runVisits_cons_stop fn v vs s s1 e h]
      have := hfn s v.path v.entry v.err (hw v (by simp)).err_ne_skipDir
      rw [h] at this
      exact this

mutual
theorem walkDir_eq_runVisits {σ : Type} (fn : WalkDirFunc σ) (hfn : NoSkipDir fn) :
    ∀ (d : Node) (name : String) (s : σ),
      fs.walkDir fn name d s = runVisits fn (Node.visits name d) s
  | Node.file nm, name, s => by
    rcases h : fn s name (some { Name := nm, IsDir := false }) none with ⟨s1, _ | e⟩
    · rw [Node.visits, runVisits_cons_go fn _ _ s s1 h]
      simp [fs.walkDir, h, runVisits]
    · rw [Node.visits, runVisits_cons_stop fn _ _ s s1 e h]
      simp [fs.walkDir, h]
  | Node.dir nm entries none, name, s => by
    rcases h : fn s name (some { Name := nm, IsDir := true }) none with ⟨s1, _ | e⟩
    · rw [Node.visits, runVisits_cons_go fn _ _ s s1 h]
      simp only [fs.walkDir, h]
      rw [walkDirEntries_eq_runVisits fn hfn entries name s1]
    · rw [Node.visits, runVisits_cons_stop fn _ _ s s1 e h]
      have := hfn s name (some { Name := nm, IsDir := true }) none (by simp)
      rw [h] at this
      have h3 : e ≠ fs.SkipDir := fun hc => this (by rw [hc]; rfl)
      simp [fs.walkDir, h, h3]
  | Node.dir nm entries (some re), name, s => by
    rcases h : fn s name (some { Name := nm, IsDir := true }) none with ⟨s1, _ | e⟩
    · rw [Node.visits, runVisits_cons_go fn _ _ s s1 h]
      rcases h2 : fn s1 name (some { Name := nm, IsDir := true }) (some (GoError.Store re))
        with ⟨s2, _ | e2⟩
      · rw [runVisits_cons_go fn _ _ s1 s2 h2]
        simp only [fs.walkDir, h, h2]
        rw [walkDirEntries_eq_runVisits fn hfn entries name s2]
      · rw [runVisits_cons_stop fn _ _ s1 s2 e2 h2]
        have := hfn s1 name (some { Name := nm, IsDir := true }) (some (GoError.Store re))
          (by simp)
        rw [h2] at this
        have h3 : e2 ≠ fs.SkipDir := fun hc => this (by rw [hc]; rfl)
        simp [fs.walkDir, h, h2, h3]
    · rw [Node.visits, runVisits_cons_stop fn _ _ s s1 e h]
      have := hfn s name (some { Name := nm, IsDir := true }) none (by simp)
      rw [h] at this
      have h3 : e ≠ fs.SkipDir := fun hc => this (by rw [hc]; rfl)
      simp [fs.walkDir, h, h3]
theorem walkDirEntries_eq_runVisits {σ : Type} (fn : WalkDirFunc σ) (hfn : NoSkipDir fn) :
    ∀ (l : List Node) (name : String) (s : σ),
      fs.walkDirEntries fn name l s = runVisits fn (Node.visitsEntries name l) s
  | [], name, s => by simp [fs.walkDirEntries, Node.visitsEntries, runVisits]
  | d1 :: rest, name, s => by
    rw [Node.visitsEntries, runVisits_append, fs.walkDirEntries,
      walkDir_eq_runVisits fn hfn d1 _ s]
    rcases h : runVisits fn (Node.visits (pathpkg.Join [name, d1.Name]) d1) s
      with ⟨s1, _ | e, t⟩
    · simp only [if_true]
      rw [walkDirEntries_eq_runVisits fn hfn rest name s1]
    · have hne := runVisits_err_ne_skipDir fn hfn
        (Node.visits (pathpkg.Join [name, d1.Name]) d1) s (visits_wellFormed d1 _)
      rw [h] at hne
      have h3 : e ≠ fs.SkipDir := fun hc => hne (by rw [hc]; rfl)
      simp [h3]
end

theorem WalkDir_eq_runVisits {σ : Type} (fsys : FS) (root : String) (fn : WalkDirFunc σ)
    (hfn : NoSkipDir fn) (s : σ) :
    fs.WalkDir fsys root fn s =
      ((runVisits fn (traversal fsys root) s).1,
        (if (runVisits fn (traversal fsys root) s).2.1 = some fs.SkipDir ∨
            (runVisits fn (traversal fsys root) s).2.1 = some fs.SkipAll then none
          else (runVisits fn (traversal fsys root) s).2.1),
        (runVisits fn (traversal fsys root) s).2.2) := by
  unfold fs.WalkDir traversal
  cases h : fsys.resolve root with
  | error e =>
    simp only
    rcases h2 : fn s root none (some (GoError.Store e)) with ⟨s1, _ | e2⟩
    · rw [runVisits_cons_go fn _ _ s s1 h2]
      simp [runVisits]
    · rw [runVisits_cons_stop fn _ _ s s1 e2 h2]
  | ok n =>
    simp only
    rw [walkDir_eq_runVisits fn hfn n root s]

theorem runVisits_quiet {σ : Type} (fn : WalkDirFunc σ) (pre rest : List Visit) (s : σ)
    (h : ∀ v ∈ pre, fn s v.path v.entry v.err = (s, none)) :
    runVisits fn (pre ++ rest) s =
      ((runVisits fn rest s).1, (runVisits fn rest s).2.1,
        pre ++ (runVisits fn rest s).2.2) := by
  induction pre with
  | nil => simp
  | cons v vs ih =>
    rw [List.cons_append, runVisits_cons_go fn v _ s s (h v (by simp)),
      ih (fun x hx => h x (List.mem_cons_of_mem _ hx))]
    simp

theorem exists_first {α : Type} (P : α → Prop) [DecidablePred P] :
    ∀ (l : List α), (∃ x ∈ l, P x) →
      ∃ pre ev post, l = pre ++ ev :: post ∧ (∀ x ∈ pre, ¬ P x) ∧ P ev := by
  intro l
  induction l with
  | nil => rintro ⟨x, hx, _⟩; simp at hx
  | cons a l ih =>
    intro h
    by_cases ha : P a
    · exact ⟨[], a, l, rfl, by simp, ha⟩
    · obtain ⟨x, hx, hp⟩ := h
      have hx2 : x ∈ l := by
        rcases List.mem_cons.1 hx with h1 | h1
        · subst h1; exact absurd hp ha
        · exact h1
      obtain ⟨pre, ev, post, h1, h2, h3⟩ := ih ⟨x, hx2, hp⟩
      refine ⟨a :: pre, ev, post, by rw [h1]; rfl, ?_, h3⟩
      intro y hy
      rcases List.mem_cons.1 hy with h4 | h4
      · subst h4; exact ha
      · exact h2 y h4

namespace flexible

theorem SearchFunc_noSkipDir (rxFind : Regexp) (rxSkip : Option Regexp) :
    NoSkipDir (SearchFunc rxFind rxSkip) := by
  intro s p en er her
  unfold SearchFunc
  cases er with
  | some e => simp only; intro h; exact her (by simpa using h)
  | none =>
    cases en with
    | none => simp
    | some d =>
      simp only
      split <;> simp [fs.SkipAll]

theorem LookupFunc_noSkipDir (rx : Regexp) : NoSkipDir (LookupFunc rx) := by
  intro s p en er her
  unfold LookupFunc
  cases er with
  | some e => simp only; intro h; exact her (by simpa using h)
  | none =>
    cases en with
    | none => simp
    | some d =>
      simp only
      split <;> simp

theorem FindFunc_eq_SearchFunc (rx : Regexp) : FindFunc rx = SearchFunc rx none := by
  funext result p entry err
  unfold FindFunc SearchFunc
  cases err with
  | some e => rfl
  | none =>
    cases entry with
    | none => rfl
    | some d => simp

theorem SearchFunc_err (rxFind : Regexp) (rxSkip : Option Regexp) (s : String) (v : Visit)
    (e : GoError) (h : v.err = some e) :
    SearchFunc rxFind rxSkip s v.path v.entry v.err = (s, some e) := by
  simp [SearchFunc, h]

theorem SearchFunc_hit (rxFind : Regexp) (rxSkip : Option Regexp) (s : String) (v : Visit)
    (he : v.err = none) (h : v.isHit rxFind rxSkip = true) :
    SearchFunc rxFind rxSkip s v.path v.entry v.err
      = (normalizePath [v.path], some fs.SkipAll) := by
  unfold Visit.isHit Visit.isFile Visit.baseName at h
  unfold SearchFunc
  rw [he]
  cases hen : v.entry with
  | none => rw [hen] at h; simp at h
  | some d =>
    rw [hen] at h
    simp only at h ⊢
    rw [if_pos h]

theorem SearchFunc_quiet (rxFind : Regexp) (rxSkip : Option Regexp) (s : String) (v : Visit)
    (he : v.err = none) (h : v.isHit rxFind rxSkip = false) :
    SearchFunc rxFind rxSkip s v.path v.entry v.err = (s, none) := by
  unfold Visit.isHit Visit.isFile Visit.baseName at h
  unfold SearchFunc
  rw [he]
  cases hen : v.entry with
  | none => rfl
  | some d =>
    rw [hen] at h
    simp only at h ⊢
    rw [if_neg (by rw [h]; simp)]

end flexible

/-! ## normalizePath -/

theorem filepath.cleanChars_ne_nil (p : List Char) : filepath.cleanChars p ≠ [] := by
  cases p with
  | nil => simp [filepath.cleanChars]
  | cons c cs =>
    simp only [filepath.cleanChars]
    split <;> split <;> simp_all

theorem filepath.Clean_ne_empty (p : String) : filepath.Clean p ≠ "" := by
  intro h
  have := congrArg String.data h
  exact filepath.cleanChars_ne_nil p.data this

theorem filepath.Clean_idem (p : String) : filepath.Clean (filepath.Clean p) = filepath.Clean p := by
  simp only [filepath.Clean]
  rw [filepath.cleanChars_idem]

theorem filepath.ToSlash_eq (p : String) : filepath.ToSlash p = p := by
  simp [filepath.ToSlash, filepath.Separator]

theorem normalizePath_eq (ps : List String) :
    normalizePath ps = filepath.Clean (filepath.Join ps) := by
  simp [normalizePath, filepath.ToSlash_eq]

theorem normalizePath_ne_empty (ps : List String) : normalizePath ps ≠ "" := by
  rw [normalizePath_eq]
  exact filepath.Clean_ne_empty _

theorem filepath.Join_nil_of_empty : ∀ (ps : List String), (∀ p ∈ ps, p = "") →
    filepath.Join ps = ""
  | [], _ => rfl
  | p :: ps, h => by
    have hp : p = "" := h p (by simp)
    subst hp
    simp only [filepath.Join]
    simp only [bne_self_eq_false, Bool.false_eq_true, if_false]
    exact filepath.Join_nil_of_empty ps (fun q hq => h q (List.mem_cons_of_mem _ hq))

theorem normalizePath_singleton (p : String) (hp : p ≠ "") :
    normalizePath [p] = filepath.Clean (filepath.Clean p) := by
  rw [normalizePath_eq]
  simp [filepath.Join, hp, strings.Join]

theorem normalizePath_idem (ps : List String) :
    normalizePath [normalizePath ps] = normalizePath ps := by
  rw [normalizePath_singleton _ (normalizePath_ne_empty ps), normalizePath_eq,
    filepath.Clean_idem, filepath.Clean_idem]

theorem normalizePath_normalForm (ps : List String) :
    ∃ (rooted : Bool) (elems : List (List Char)),
      (rooted = true ∨ elems ≠ []) ∧
      (∀ e ∈ elems, e ≠ [] ∧ ∀ c ∈ e, filepath.IsPathSeparator c = false) ∧
      (normalizePath ps).data = (if rooted then ['/'] else []) ++ List.intercalate ['/'] elems := by
  obtain ⟨rooted, elems, h1, h2, h3⟩ := filepath.cleanChars_normalForm (filepath.Join ps).data
  refine ⟨rooted, elems, h1, h2, ?_⟩
  rw [normalizePath_eq]
  show filepath.cleanChars (filepath.Join ps).data = _
  rw [h3, filepath.joined_eq_intercalate]
  rfl

/-! ## The walks of Find, Search and Lookup -/

theorem Visit.WellFormed.err_of_isFile {v : Visit} (h : v.WellFormed) (hf : v.isFile = true) :
    v.err = none := by
  rcases h with ⟨h, _⟩ | ⟨_, h⟩
  · exact h
  · unfold Visit.isFile at hf
    cases hen : v.entry with
    | none => rw [hen] at hf; simp at hf
    | some d =>
      rw [hen] at hf
      have := h d hen
      simp [this] at hf

theorem Visit.WellFormed.err_store {v : Visit} (h : v.WellFormed) (e : GoError)
    (he : v.err = some e) : ∃ c, e = GoError.Store c := by
  rcases h with ⟨h, _⟩ | ⟨⟨c, h⟩, _⟩
  · rw [h] at he; simp at he
  · rw [h] at he; exact ⟨c, by simpa using he.symm⟩

theorem Visit.isFile_of_isHit {rxFind : Regexp} {rxSkip : Option Regexp} {v : Visit}
    (h : v.isHit rxFind rxSkip = true) : v.isFile = true := by
  unfold Visit.isHit at h
  simp only [Bool.and_eq_true] at h
  exact h.1.1

theorem Visit.isHit_none (rx : Regexp) (v : Visit) : v.isHit rx none = v.isMatch rx := by
  simp [Visit.isHit, Visit.isMatch]

/-- The complete walk is what `fs.WalkDir` visits when the visitor never stops it. -/
theorem WalkDir_visits_traversal (fsys : FS) (root : String) :
    fs.WalkDir fsys root (fun (s : Unit) _ _ _ => (s, none)) () =
      ((), none, traversal fsys root) := by
  rw [WalkDir_eq_runVisits fsys root _ (by intro s p en er _; simp)]
  have := runVisits_quiet (fun (s : Unit) _ _ _ => (s, (none : Option GoError)))
    (traversal fsys root) [] () (fun v _ => rfl)
  rw [List.append_nil] at this
  rw [this]
  simp [runVisits]

namespace flexible

theorem searchWalk_hit (f : flexible) (dir : String) (rxFind : Regexp) (rxSkip : Option Regexp)
    (pre post : List Visit) (ev : Visit) (hT : traversal f.files dir = pre ++ ev :: post)
    (hpre : ∀ v ∈ pre, v.err = none ∧ v.isHit rxFind rxSkip = false)
    (hev : ev.isHit rxFind rxSkip = true) :
    searchWalk f dir rxFind rxSkip =
      { value := some (normalizePath [ev.path]), err := none, visited := pre ++ [ev] } := by
  have hwf : ev.WellFormed := traversal_wellFormed f.files dir ev (by rw [hT]; simp)
  have herr : ev.err = none := hwf.err_of_isFile (Visit.isFile_of_isHit hev)
  unfold searchWalk
  rw [WalkDir_eq_runVisits _ _ _ (SearchFunc_noSkipDir rxFind rxSkip), hT,
    runVisits_quiet _ pre _ _
      (fun v hv => SearchFunc_quiet rxFind rxSkip _ v (hpre v hv).1 (hpre v hv).2),
    runVisits_cons_stop _ ev post _ _ _ (SearchFunc_hit rxFind rxSkip _ ev herr hev)]
  simp [normalizePath_ne_empty]

theorem searchWalk_err (f : flexible) (dir : String) (rxFind : Regexp) (rxSkip : Option Regexp)
    (pre post : List Visit) (ev : Visit) (e : GoError)
    (hT : traversal f.files dir = pre ++ ev :: post)
    (hpre : ∀ v ∈ pre, v.err = none ∧ v.isHit rxFind rxSkip = false)
    (hev : ev.err = some e) :
    searchWalk f dir rxFind rxSkip =
      { value := none, err := some e, visited := pre ++ [ev] } := by
  have hwf : ev.WellFormed := traversal_wellFormed f.files dir ev (by rw [hT]; simp)
  obtain ⟨c, hc⟩ := hwf.err_store e hev
  subst hc
  unfold searchWalk
  rw [WalkDir_eq_runVisits _ _ _ (SearchFunc_noSkipDir rxFind rxSkip), hT,
    runVisits_quiet _ pre _ _
      (fun v hv => SearchFunc_quiet rxFind rxSkip _ v (hpre v hv).1 (hpre v hv).2),
    runVisits_cons_stop _ ev post _ _ _ (SearchFunc_err rxFind rxSkip _ ev _ hev)]
  simp [fs.SkipDir, fs.SkipAll]

theorem searchWalk_quiet (f : flexible) (dir : String) (rxFind : Regexp)
    (rxSkip : Option Regexp)
    (hall : ∀ v ∈ traversal f.files dir, v.err = none ∧ v.isHit rxFind rxSkip = false) :
    searchWalk f dir rxFind rxSkip =
      { value := none, err := none, visited := traversal f.files dir } := by
  unfold searchWalk
  rw [WalkDir_eq_runVisits _ _ _ (SearchFunc_noSkipDir rxFind rxSkip)]
  have := runVisits_quiet (SearchFunc rxFind rxSkip) (traversal f.files dir) [] ""
    (fun v hv => SearchFunc_quiet rxFind rxSkip _ v (hall v hv).1 (hall v hv).2)
  rw [List.append_nil] at this
  rw [this]
  simp [runVisits]

/-- Every walk of `Search` ends in one of three ways: at a first hit, at a first error, or after
the complete walk without either. -/
theorem searchWalk_cases (f : flexible) (dir : String) (rxFind : Regexp)
    (rxSkip : Option Regexp) :
    (∃ pre ev post, traversal f.files dir = pre ++ ev :: post ∧
        (∀ v ∈ pre, v.err = none ∧ v.isHit rxFind rxSkip = false) ∧
        ev.isHit rxFind rxSkip = true ∧ ev.err = none ∧
        searchWalk f dir rxFind rxSkip =
          { value := some (normalizePath [ev.path]), err := none, visited := pre ++ [ev] }) ∨
    (∃ pre ev post e, traversal f.files dir = pre ++ ev :: post ∧
        (∀ v ∈ pre, v.err = none ∧ v.isHit rxFind rxSkip = false) ∧
        ev.err = some e ∧
        searchWalk f dir rxFind rxSkip =
          { value := none, err := some e, visited := pre ++ [ev] }) ∨
    ((∀ v ∈ traversal f.files dir, v.err = none ∧ v.isHit rxFind rxSkip = false) ∧
        searchWalk f dir rxFind rxSkip =
          { value := none, err := none, visited := traversal f.files dir }) := by
  by_cases h : ∃ v ∈ traversal f.files dir, ¬ (v.err = none ∧ v.isHit rxFind rxSkip = false)
  · obtain ⟨pre, ev, post, hT, hpre, hev⟩ :=
      exists_first (fun v : Visit => ¬ (v.err = none ∧ v.isHit rxFind rxSkip = false)) _ h
    have hpre2 : ∀ v ∈ pre, v.err = none ∧ v.isHit rxFind rxSkip = false :=
      fun v hv => not_not.1 (hpre v hv)
    cases herr : ev.err with
    | some e =>
      exact Or.inr (Or.inl ⟨pre, ev, post, e, hT, hpre2, herr,
        searchWalk_err f dir rxFind rxSkip pre post ev e hT hpre2 herr⟩)
    | none =>
      have hhit : ev.isHit rxFind rxSkip = true := by
        by_contra hc
        exact hev ⟨herr, by simpa using hc⟩
      exact Or.inl ⟨pre, ev, post, hT, hpre2, hhit, herr,
        searchWalk_hit f dir rxFind rxSkip pre post ev hT hpre2 hhit⟩
  · have hall : ∀ v ∈ traversal f.files dir, v.err = none ∧ v.isHit rxFind rxSkip = false := by
      intro v hv
      by_contra hc
      exact h ⟨v, hv, hc⟩
    exact Or.inr (Or.inr ⟨hall, searchWalk_quiet f dir rxFind rxSkip hall⟩)

theorem Find_eq_searchWalk (Compile : String → Option Regexp) (f : flexible)
    (dir pattern : String) (rx : Regexp) (hc : Compile pattern = some rx) :
    Find Compile f dir pattern = searchWalk f (normalizePath [dir]) rx none := by
  simp only [Find, hc, searchWalk, FindFunc_eq_SearchFunc]

theorem LookupFunc_err (rx : Regexp) (s : List String) (v : Visit) (e : GoError)
    (h : v.err = some e) : LookupFunc rx s v.path v.entry v.err = (s, some e) := by
  simp [LookupFunc, h]

theorem LookupFunc_ok (rx : Regexp) (s : List String) (v : Visit) (he : v.err = none) :
    LookupFunc rx s v.path v.entry v.err =
      (if v.isMatch rx then s ++ [normalizePath [v.path]] else s, none) := by
  unfold LookupFunc Visit.isMatch Visit.isFile Visit.baseName
  rw [he]
  cases hen : v.entry with
  | none => simp
  | some d =>
    simp only
    split <;> simp_all

theorem runVisits_Lookup (rx : Regexp) : ∀ (vs rest : List Visit) (s : List String),
    (∀ v ∈ vs, v.err = none) →
    runVisits (LookupFunc rx) (vs ++ rest) s =
      ((runVisits (LookupFunc rx) rest
          (s ++ (vs.filter (fun v => v.isMatch rx)).map (fun v => normalizePath [v.path]))).1,
        (runVisits (LookupFunc rx) rest
          (s ++ (vs.filter (fun v => v.isMatch rx)).map (fun v => normalizePath [v.path]))).2.1,
        vs ++ (runVisits (LookupFunc rx) rest
          (s ++ (vs.filter (fun v => v.isMatch rx)).map
            (fun v => normalizePath [v.path]))).2.2) := by
  intro vs
  induction vs with
  | nil => intro rest s _; simp
  | cons v vs ih =>
    intro rest s h
    have hv : v.err = none := h v (by simp)
    rw [List.cons_append, runVisits_cons_go _ v _ s _ (LookupFunc_ok rx s v hv),
      ih rest _ (fun x hx => h x (List.mem_cons_of_mem _ hx))]
    by_cases hm : v.isMatch rx = true
    · simp [hm, List.filter_cons]
    · simp [hm, List.filter_cons]

theorem Lookup_quiet (Compile : String → Option Regexp) (f : flexible) (dir pattern : String)
    (rx : Regexp) (hc : Compile pattern = some rx)
    (hall : ∀ v ∈ traversal f.files (normalizePath [dir]), v.err = none) :
    Lookup Compile f dir pattern =
      { value := ((traversal f.files (normalizePath [dir])).filter
            (fun v => v.isMatch rx)).map (fun v => normalizePath [v.path]),
        err := none,
        visited := traversal f.files (normalizePath [dir]) } := by
  simp only [Lookup, hc]
  rw [WalkDir_eq_runVisits _ _ _ (LookupFunc_noSkipDir rx)]
  have := runVisits_Lookup rx (traversal f.files (normalizePath [dir])) [] [] hall
  rw [List.append_nil] at this
  rw [this]
  simp only [runVisits, List.nil_append, List.append_nil]
  simp only [reduceCtorEq, or_self, if_false]
  split
  · rename_i h
    simp only [beq_iff_eq, List.length_eq_zero] at h
    simp [h]
  · rfl

theorem Lookup_err (Compile : String → Option Regexp) (f : flexible) (dir pattern : String)
    (rx : Regexp) (hc : Compile pattern = some rx) (pre post : List Visit) (ev : Visit)
    (e : GoError) (hT : traversal f.files (normalizePath [dir]) = pre ++ ev :: post)
    (hpre : ∀ v ∈ pre, v.err = none) (hev : ev.err = some e) :
    Lookup Compile f dir pattern = { value := [], err := some e, visited := pre ++ [ev] } := by
  have hwf : ev.WellFormed :=
    traversal_wellFormed f.files (normalizePath [dir]) ev (by rw [hT]; simp)
  obtain ⟨c, hcs⟩ := hwf.err_store e hev
  subst hcs
  simp only [Lookup, hc]
  rw [WalkDir_eq_runVisits _ _ _ (LookupFunc_noSkipDir rx), hT, runVisits_Lookup rx pre _ _ hpre,
    runVisits_cons_stop _ ev post _ _ _ (LookupFunc_err rx _ ev _ hev)]
  simp [fs.SkipDir, fs.SkipAll]

end flexible

/-! ## The claims -/

/-- C1: when the walk of `dir` reports no error, `Lookup` returns with a nil error exactly the
normalized paths of the visited non-directories whose base name matches the pattern, one per
entry and in the order of the walk; so every element of the list is the normalized path of a
non-directory under `dir` whose base name matches. -/
theorem Lookup_collects_every_match (Compile : String → Option Regexp) (f : flexible)
    (dir pattern : String) (rx : Regexp) (hc : Compile pattern = some rx)
    (hok : ∀ v ∈ traversal f.files (normalizePath [dir]), v.err = none) :
    (flexible.Lookup Compile f dir pattern).err = none ∧
    (flexible.Lookup Compile f dir pattern).value =
      ((traversal f.files (normalizePath [dir])).filter (fun v => v.isMatch rx)).map
        (fun v => normalizePath [v.path]) ∧
    ∀ p ∈ (flexible.Lookup Compile f dir pattern).value,
      ∃ v ∈ traversal f.files (normalizePath [dir]),
        v.isFile = true ∧ rx.MatchString v.baseName = true ∧ p = normalizePath [v.path] := by
  rw [flexible.Lookup_quiet Compile f dir pattern rx hc hok]
  refine ⟨rfl, rfl, ?_⟩
  intro p hp
  simp only [List.mem_map, List.mem_filter] at hp
  obtain ⟨v, ⟨hv, hm⟩, rfl⟩ := hp
  simp only [Visit.isMatch, Bool.and_eq_true] at hm
  exact ⟨v, hv, hm.1, hm.2, rfl⟩

/-- C1, worked example: `Lookup(".", ".*\.go")` on the store of the end-to-end scenarios. -/
theorem Lookup_collects_every_match_witness :
    sample.Compile ".*\\.go" = some (sample.regexOf [[], ".go".data]) ∧
    (∀ v ∈ traversal sample.repoFS (normalizePath ["."]), v.err = none) ∧
    (flexible.Lookup sample.Compile ⟨sample.repoFS⟩ "." ".*\\.go").err = none ∧
    (flexible.Lookup sample.Compile ⟨sample.repoFS⟩ "." ".*\\.go").value =
      ["fs.go", "fs_flexible.go", "fs_test.go", "utils.go"] :=
  ⟨rfl, by decide,
    (Lookup_collects_every_match sample.Compile ⟨sample.repoFS⟩ "." ".*\\.go"
      (sample.regexOf [[], ".go".data]) rfl (by decide)).1,
    by decide⟩

/-- C2: when the walk of `dir` reaches a non-directory whose base name matches before any walk
error, `Find` returns with a nil error the normalized path of the first such entry of the walk,
and the walk has visited that entry last. -/
theorem Find_returns_first_match (Compile : String → Option Regexp) (f : flexible)
    (dir pattern : String) (rx : Regexp) (hc : Compile pattern = some rx)
    (h : ∃ a m b, traversal f.files (normalizePath [dir]) = a ++ m :: b ∧
      (∀ v ∈ a, v.err = none) ∧ m.isMatch rx = true) :
    ∃ pre ev post, traversal f.files (normalizePath [dir]) = pre ++ ev :: post ∧
      (∀ v ∈ pre, v.err = none ∧ v.isMatch rx = false) ∧
      ev.isFile = true ∧ rx.MatchString ev.baseName = true ∧
      (flexible.Find Compile f dir pattern).value = some (normalizePath [ev.path]) ∧
      (flexible.Find Compile f dir pattern).err = none ∧
      (flexible.Find Compile f dir pattern).visited = pre ++ [ev] := by
  obtain ⟨a, m, b, hT, ha, hm⟩ := h
  obtain ⟨pre, ev, post, h1, h2, h3⟩ :=
    exists_first (fun v : Visit => v.isMatch rx = true) (a ++ [m]) ⟨m, by simp, hm⟩
  have hpre : ∀ v ∈ pre, v.err = none ∧ v.isMatch rx = false := by
    intro v hv
    have hv2 : v ∈ a ++ [m] := by rw [h1]; simp [hv]
    have hnm : v.isMatch rx = false := by simpa using h2 v hv
    refine ⟨?_, hnm⟩
    rcases List.mem_append.1 hv2 with h4 | h4
    · exact ha v h4
    · simp only [List.mem_singleton] at h4
      rw [h4, hm] at hnm
      exact absurd hnm (by simp)
  have hT2 : traversal f.files (normalizePath [dir]) = pre ++ ev :: (post ++ b) := by
    rw [hT, show a ++ m :: b = (a ++ [m]) ++ b by simp, h1]
    simp
  have hev : ev.isHit rx none = true := by rw [Visit.isHit_none]; exact h3
  have hpre2 : ∀ v ∈ pre, v.err = none ∧ v.isHit rx none = false := by
    intro v hv
    rw [Visit.isHit_none]
    exact hpre v hv
  have hfind := flexible.searchWalk_hit f (normalizePath [dir]) rx none pre (post ++ b) ev hT2
    hpre2 hev
  rw [← flexible.Find_eq_searchWalk Compile f dir pattern rx hc] at hfind
  have h3b := h3
  simp only [Visit.isMatch, Bool.and_eq_true] at h3b
  refine ⟨pre, ev, post ++ b, hT2, hpre, h3b.1, h3b.2, ?_, ?_, ?_⟩ <;> rw [hfind]

/-- C2, worked example: `Find(".", ".*_test.*")` on the store of the end-to-end scenarios stops
at `fs_test.go` and never visits `utils.go`. -/
theorem Find_returns_first_match_witness :
    sample.Compile ".*_test.*" = some (sample.regexOf [[], "_test".data, []]) ∧
    ∃ pre ev post, traversal sample.repoFS (normalizePath ["."]) = pre ++ ev :: post ∧
      (∀ v ∈ pre, v.err = none ∧ v.isMatch (sample.regexOf [[], "_test".data, []]) = false) ∧
      ev.isFile = true ∧
      (sample.regexOf [[], "_test".data, []]).MatchString ev.baseName = true ∧
      (flexible.Find sample.Compile ⟨sample.repoFS⟩ "." ".*_test.*").value
        = some (normalizePath [ev.path]) ∧
      (flexible.Find sample.Compile ⟨sample.repoFS⟩ "." ".*_test.*").err = none ∧
      (flexible.Find sample.Compile ⟨sample.repoFS⟩ "." ".*_test.*").visited = pre ++ [ev] :=
  ⟨rfl, Find_returns_first_match sample.Compile ⟨sample.repoFS⟩ "." ".*_test.*"
    (sample.regexOf [[], "_test".data, []]) rfl
    ⟨[{ path := ".", entry := some { Name := ".", IsDir := true }, err := none },
      { path := "fs.go", entry := some { Name := "fs.go", IsDir := false }, err := none },
      { path := "fs_flexible.go", entry := some { Name := "fs_flexible.go", IsDir := false },
        err := none }],
     { path := "fs_test.go", entry := some { Name := "fs_test.go", IsDir := false },
       err := none },
     [{ path := "utils.go", entry := some { Name := "utils.go", IsDir := false },
        err := none }],
     by decide, by decide, by decide⟩⟩

/-- C3 (amended): for a pattern that compiles, `Find` returns the absent optional with a nil
error exactly when the walk of `dir` completes without error and no non-directory's base name
matches; the empty string that stands for "nothing found" inside `Find` is never the normalized
path of an entry; and when the regex matches every base name, as `.*` does, and the subtree
holds at least one non-directory, `Find` returns an error or the normalized path of a
non-directory under `dir`, never the absent optional with a nil error. -/
theorem Find_absent_iff_no_match (Compile : String → Option Regexp) (f : flexible)
    (dir pattern : String) (rx : Regexp) (hc : Compile pattern = some rx) :
    (((flexible.Find Compile f dir pattern).value = none ∧
        (flexible.Find Compile f dir pattern).err = none) ↔
      ((∀ v ∈ traversal f.files (normalizePath [dir]), v.err = none) ∧
        ∀ v ∈ traversal f.files (normalizePath [dir]), v.isMatch rx = false)) ∧
    (∀ v : Visit, normalizePath [v.path] ≠ "") ∧
    ((∀ s, rx.MatchString s = true) →
      (∃ v ∈ traversal f.files (normalizePath [dir]), v.isFile = true) →
      ((flexible.Find Compile f dir pattern).err ≠ none ∨
        ∃ v ∈ traversal f.files (normalizePath [dir]), v.isFile = true ∧
          (flexible.Find Compile f dir pattern).value = some (normalizePath [v.path]))) := by
  rw [flexible.Find_eq_searchWalk Compile f dir pattern rx hc]
  refine ⟨?_, fun v => normalizePath_ne_empty _, ?_⟩
  · rcases flexible.searchWalk_cases f (normalizePath [dir]) rx none with
      ⟨pre, ev, post, hT, _, hhit, _, hres⟩ | ⟨pre, ev, post, e, hT, _, herr, hres⟩ | ⟨hall, hres⟩
    · rw [hres]
      constructor
      · rintro ⟨h, _⟩; simp at h
      · rintro ⟨_, h⟩
        have := h ev (by rw [hT]; simp)
        rw [Visit.isHit_none, this] at hhit
        simp at hhit
    · rw [hres]
      constructor
      · rintro ⟨_, h⟩; simp at h
      · rintro ⟨h, _⟩
        have := h ev (by rw [hT]; simp)
        rw [herr] at this
        simp at this
    · rw [hres]
      constructor
      · intro _
        exact ⟨fun v hv => (hall v hv).1,
          fun v hv => by rw [← Visit.isHit_none]; exact (hall v hv).2⟩
      · intro _; exact ⟨rfl, rfl⟩
  · intro hany hfile
    rcases flexible.searchWalk_cases f (normalizePath [dir]) rx none with
      ⟨pre, ev, post, hT, _, hhit, _, hres⟩ | ⟨pre, ev, post, e, hT, _, herr, hres⟩ | ⟨hall, hres⟩
    · right
      exact ⟨ev, by rw [hT]; simp, Visit.isFile_of_isHit hhit, by rw [hres]⟩
    · left
      rw [hres]
      simp
    · obtain ⟨v, hv, hf⟩ := hfile
      have := (hall v hv).2
      simp [Visit.isHit, hf, hany] at this

/-- C3, worked example: with `.*` on the store of the end-to-end scenarios `Find` is not
absent. -/
theorem Find_absent_iff_no_match_witness :
    sample.Compile ".*" = some (sample.regexOf [[], []]) ∧
    ¬ ((flexible.Find sample.Compile ⟨sample.repoFS⟩ "." ".*").value = none ∧
        (flexible.Find sample.Compile ⟨sample.repoFS⟩ "." ".*").err = none) :=
  ⟨rfl, fun h =>
    absurd ((Find_absent_iff_no_match sample.Compile ⟨sample.repoFS⟩ "." ".*"
      (sample.regexOf [[], []]) rfl).1.1 h).2 (by decide)⟩

/-- C3 as stated fails: the subtree under `.` is not empty, it holds the directory `empty`, the
sample `.*` matches every name, and yet `Find(".", ".*")` is absent with a nil error. -/
theorem Find_absent_on_nonempty_subtree :
    sample.Compile ".*" = some (sample.regexOf [[], []]) ∧
    (∀ s, (sample.regexOf [[], []]).MatchString s = true) ∧
    traversal sample.dirsOnlyFS (normalizePath ["."]) =
      [{ path := ".", entry := some { Name := ".", IsDir := true }, err := none },
       { path := "empty", entry := some { Name := "empty", IsDir := true }, err := none }] ∧
    (flexible.Find sample.Compile ⟨sample.dirsOnlyFS⟩ "." ".*").value = none ∧
    (flexible.Find sample.Compile ⟨sample.dirsOnlyFS⟩ "." ".*").err = none := by
  refine ⟨rfl, ?_, by decide, by decide, by decide⟩
  intro s
  show sample.matchSegments [[], []] s.data = true
  cases s.data <;> simp [sample.matchSegments, sample.dropThrough, sample.startsWith]

/-- C4 (amended): `Find` returns either absent, or a path that is in the list `Lookup` returns
for the same store, directory and pattern whenever `Lookup` returns without an error. -/
theorem Find_result_in_Lookup (Compile : String → Option Regexp) (f : flexible)
    (dir pattern : String) :
    (flexible.Find Compile f dir pattern).value = none ∨
    ∃ p, (flexible.Find Compile f dir pattern).value = some p ∧
      ((flexible.Lookup Compile f dir pattern).err = none →
        p ∈ (flexible.Lookup Compile f dir pattern).value) := by
  cases hc : Compile pattern with
  | none => left; simp [flexible.Find, hc]
  | some rx =>
    rw [flexible.Find_eq_searchWalk Compile f dir pattern rx hc]
    rcases flexible.searchWalk_cases f (normalizePath [dir]) rx none with
      ⟨pre, ev, post, hT, _, hhit, _, hres⟩ | ⟨pre, ev, post, e, hT, _, herr, hres⟩ | ⟨hall, hres⟩
    · right
      refine ⟨normalizePath [ev.path], by rw [hres], ?_⟩
      intro hle
      by_cases herrs : ∃ v ∈ traversal f.files (normalizePath [dir]), ¬ v.err = none
      · obtain ⟨a, x, b, hT2, ha, hx⟩ := exists_first (fun v : Visit => ¬ v.err = none) _ herrs
        obtain ⟨e, he⟩ : ∃ e, x.err = some e := by
          cases hxe : x.err with
          | none => exact absurd hxe hx
          | some e => exact ⟨e, rfl⟩
        rw [flexible.Lookup_err Compile f dir pattern rx hc a b x e hT2
          (fun v hv => not_not.1 (ha v hv)) he] at hle
        simp at hle
      · have hq : ∀ v ∈ traversal f.files (normalizePath [dir]), v.err = none := by
          intro v hv
          by_contra hc2
          exact herrs ⟨v, hv, hc2⟩
        rw [flexible.Lookup_quiet Compile f dir pattern rx hc hq]
        simp only [List.mem_map, List.mem_filter]
        exact ⟨ev, ⟨by rw [hT]; simp, by rw [← Visit.isHit_none]; exact hhit⟩, rfl⟩
    · left; rw [hres]
    · left; rw [hres]

/-- C4, worked example: on the store of the end-to-end scenarios the path `Find` returns for
`.*_test.*` is in the list of `Lookup`. -/
theorem Find_result_in_Lookup_witness :
    (flexible.Find sample.Compile ⟨sample.repoFS⟩ "." ".*_test.*").value = some "fs_test.go" ∧
    (flexible.Lookup sample.Compile ⟨sample.repoFS⟩ "." ".*_test.*").err = none ∧
    "fs_test.go" ∈ (flexible.Lookup sample.Compile ⟨sample.repoFS⟩ "." ".*_test.*").value := by
  have hf : (flexible.Find sample.Compile ⟨sample.repoFS⟩ "." ".*_test.*").value
      = some "fs_test.go" := by decide
  have hl : (flexible.Lookup sample.Compile ⟨sample.repoFS⟩ "." ".*_test.*").err = none := by
    decide
  refine ⟨hf, hl, ?_⟩
  rcases Find_result_in_Lookup sample.Compile ⟨sample.repoFS⟩ "." ".*_test.*" with h | ⟨p, hp, h⟩
  · rw [hf] at h; exact absurd h (by simp)
  · rw [hf] at hp
    simp only [Option.some.injEq] at hp
    rw [hp]
    exact h hl

/-- C4 as stated fails: `Find` returns `a.go`, but the walk of `Lookup` goes on into a
directory that cannot be read, so `Lookup` returns that error and no list. -/
theorem Find_result_missing_from_Lookup :
    ¬ ((flexible.Find sample.Compile ⟨sample.lockedFS⟩ "." "a\\.go").value = none ∨
      ∃ p, (flexible.Find sample.Compile ⟨sample.lockedFS⟩ "." "a\\.go").value = some p ∧
        p ∈ (flexible.Lookup sample.Compile ⟨sample.lockedFS⟩ "." "a\\.go").value) := by
  have h1 : (flexible.Find sample.Compile ⟨sample.lockedFS⟩ "." "a\\.go").value
      = some "a.go" := by decide
  have h2 : (flexible.Lookup sample.Compile ⟨sample.lockedFS⟩ "." "a\\.go").value = [] := by
    decide
  rintro (h | ⟨p, _, hp⟩)
  · rw [h1] at h; exact absurd h (by simp)
  · rw [h2] at hp; simp at hp

theorem strings.TrimLeft_dot (ext : String) :
    strings.TrimLeft ext "." = String.mk (spec.stripLeadingDots ext.data) := by
  unfold strings.TrimLeft
  congr 1
  induction ext.data with
  | nil => rfl
  | cons c cs ih =>
    by_cases hc : c = '.'
    · subst hc
      simp only [spec.stripLeadingDots, if_true]
      rw [← ih]
      rfl
    · simp only [spec.stripLeadingDots, hc, if_false]
      rw [List.dropWhile_cons_of_neg]
      intro h
      apply hc
      have : c ∈ ['.'] := by simpa using h
      simpa using this

theorem flexible.Search_eq_searchWalk (Compile : String → Option Regexp) (f : flexible)
    (dir phrase ignore ext : String) (rxFind rxIgnore : Regexp)
    (hF : Compile (spec.findPattern phrase ext) = some rxFind)
    (hS : ignore ≠ "" → Compile (spec.skipPattern ignore) = some rxIgnore) :
    flexible.Search Compile f dir phrase ignore ext =
      flexible.searchWalk f (normalizePath [dir]) rxFind (spec.skipRegex ignore rxIgnore) := by
  have hfind : (if (strings.TrimLeft ext "." == "") = true then Compile (phrase ++ ".*")
      else Compile (phrase ++ ".*\\." ++ strings.TrimLeft ext ".")) = some rxFind := by
    rw [← hF, strings.TrimLeft_dot]
    unfold spec.findPattern
    by_cases h : String.mk (spec.stripLeadingDots ext.data) = ""
    · simp [h]
    · simp [h]
  unfold flexible.Search
  simp only [hfind]
  by_cases hi : ignore = ""
  · simp [hi, spec.skipRegex]
  · have := hS hi
    unfold spec.skipPattern at this
    simp [hi, spec.skipRegex, this]

/-- C5: with the find pattern and, for a non-empty `ignore`, the skip pattern built as the
specification says and compiling, `Search` returns the normalized path of the first entry of the
walk, reached before any walk error, that is a non-directory whose base name matches the find
regex and not the skip regex, and visits nothing after it; and it returns absent with a nil error
when the walk completes without error and without such an entry. -/
theorem Search_returns_first_hit (Compile : String → Option Regexp) (f : flexible)
    (dir phrase ignore ext : String) (rxFind rxIgnore : Regexp)
    (hF : Compile (spec.findPattern phrase ext) = some rxFind)
    (hS : ignore ≠ "" → Compile (spec.skipPattern ignore) = some rxIgnore) :
    (∀ pre ev post, traversal f.files (normalizePath [dir]) = pre ++ ev :: post →
      (∀ v ∈ pre, v.err = none ∧ v.isHit rxFind (spec.skipRegex ignore rxIgnore) = false) →
      ev.isHit rxFind (spec.skipRegex ignore rxIgnore) = true →
      flexible.Search Compile f dir phrase ignore ext =
        { value := some (normalizePath [ev.path]), err := none, visited := pre ++ [ev] }) ∧
    ((∀ v ∈ traversal f.files (normalizePath [dir]),
        v.err = none ∧ v.isHit rxFind (spec.skipRegex ignore rxIgnore) = false) →
      (flexible.Search Compile f dir phrase ignore ext).value = none ∧
      (flexible.Search Compile f dir phrase ignore ext).err = none) := by
  rw [flexible.Search_eq_searchWalk Compile f dir phrase ignore ext rxFind rxIgnore hF hS]
  constructor
  · intro pre ev post hT hpre hev
    exact flexible.searchWalk_hit f _ rxFind _ pre post ev hT hpre hev
  · intro hall
    rw [flexible.searchWalk_quiet f _ rxFind _ hall]
    exact ⟨rfl, rfl⟩

/-- C5, worked example: `Search(".", "fs_", "flex", ".go")` on the store of the end-to-end
scenarios passes over `fs.go` (no match) and `fs_flexible.go` (ignored) and returns
`fs_test.go`. -/
theorem Search_returns_first_hit_witness :
    sample.Compile (spec.findPattern "fs_" ".go") = some (sample.regexOf ["fs_".data, ".go".data]) ∧
    ("flex" ≠ "" → sample.Compile (spec.skipPattern "flex")
      = some (sample.regexOf [[], "flex".data, []])) ∧
    flexible.Search sample.Compile ⟨sample.repoFS⟩ "." "fs_" "flex" ".go" =
      { value := some "fs_test.go", err := none,
        visited :=
          [{ path := ".", entry := some { Name := ".", IsDir := true }, err := none },
           { path := "fs.go", entry := some { Name := "fs.go", IsDir := false }, err := none },
           { path := "fs_flexible.go",
             entry := some { Name := "fs_flexible.go", IsDir := false }, err := none },
           { path := "fs_test.go", entry := some { Name := "fs_test.go", IsDir := false },
             err := none }] } :=
  ⟨rfl, fun _ => rfl,
    (Search_returns_first_hit sample.Compile ⟨sample.repoFS⟩ "." "fs_" "flex" ".go"
      (sample.regexOf ["fs_".data, ".go".data]) (sample.regexOf [[], "flex".data, []])
      rfl (fun _ => rfl)).1
      [{ path := ".", entry := some { Name := ".", IsDir := true }, err := none },
       { path := "fs.go", entry := some { Name := "fs.go", IsDir := false }, err := none },
       { path := "fs_flexible.go",
         entry := some { Name := "fs_flexible.go", IsDir := false }, err := none }]
      { path := "fs_test.go", entry := some { Name := "fs_test.go", IsDir := false },
        err := none }
      [{ path := "utils.go", entry := some { Name := "utils.go", IsDir := false },
         err := none }]
      (by decide) (by decide) (by decide)⟩

/-- C6 (amended): `Exists` returns true exactly when the stat of the normalized path succeeds
and the entry is not a directory, and then the error is nil; stat failing with the cause that
`os.IsNotExist` recognises gives `(false, nil)`, a directory gives `(false, nil)`, and stat
failing with any other cause gives `false` together with that stat error, also when the cause
says that the store holds no entry at the path. -/
theorem Exists_iff_stat_file (f : flexible) (p : String) :
    ((flexible.Exists f p).1 = true ↔
      ∃ info, fs.Stat f.files (normalizePath [p]) = Except.ok info ∧ info.IsDir = false) ∧
    ((flexible.Exists f p).1 = true → flexible.Exists f p = (true, none)) ∧
    (fs.Stat f.files (normalizePath [p]) = Except.error StoreError.NotExist →
      flexible.Exists f p = (false, none)) ∧
    (∀ info, fs.Stat f.files (normalizePath [p]) = Except.ok info → info.IsDir = true →
      flexible.Exists f p = (false, none)) ∧
    (∀ e, fs.Stat f.files (normalizePath [p]) = Except.error e → e ≠ StoreError.NotExist →
      flexible.Exists f p = (false, some (GoError.Store e))) := by
  cases h : fs.Stat f.files (normalizePath [p]) with
  | error e =>
    have hE : flexible.Exists f p = if os.IsNotExist (some (GoError.Store e)) = true
        then (false, none) else (false, some (GoError.Store e)) := by
      simp only [flexible.Exists, h]
    refine ⟨?_, ?_, ?_, ?_, ?_⟩
    · rw [hE]
      constructor
      · intro h1; split at h1 <;> simp at h1
      · rintro ⟨info, h1, _⟩; simp at h1
    · rw [hE]
      intro h1; split at h1 <;> simp at h1
    · intro h1
      simp only [Except.error.injEq] at h1
      subst h1
      rw [hE]
      rfl
    · intro info h1; simp at h1
    · intro e1 h1 h2
      simp only [Except.error.injEq] at h1
      subst h1
      rw [hE]
      cases e <;> first | exact absurd rfl h2 | rfl
  | ok info =>
    have hE : flexible.Exists f p = (!info.IsDir, none) := by
      simp only [flexible.Exists, h]
    refine ⟨?_, ?_, ?_, ?_, ?_⟩
    · rw [hE]; simp
    · rw [hE]
      intro h1
      simp only at h1
      rw [h1]
    · intro h1; simp at h1
    · intro info1 h1 h2
      simp only [Except.ok.injEq] at h1
      subst h1
      rw [hE, h2]; rfl
    · intro e h1; simp at h1

/-- C6, worked example: on the store of the end-to-end scenarios `fs.go` exists, `missing.go`
does not and is no error, and the root directory does not count. -/
theorem Exists_iff_stat_file_witness :
    flexible.Exists ⟨sample.repoFS⟩ "fs.go" = (true, none) ∧
    flexible.Exists ⟨sample.repoFS⟩ "missing.go" = (false, none) ∧
    flexible.Exists ⟨sample.repoFS⟩ "." = (false, none) :=
  ⟨(Exists_iff_stat_file ⟨sample.repoFS⟩ "fs.go").2.1 (by decide),
    (Exists_iff_stat_file ⟨sample.repoFS⟩ "missing.go").2.2.1 rfl,
    (Exists_iff_stat_file ⟨sample.repoFS⟩ ".").2.2.2.1 { Name := ".", IsDir := true } rfl rfl⟩

/-- C6 as stated fails: there is no entry `fs.go/x`, a name below a file, and none with the
rooted name `/fs.go`, and the store says so with ENOTDIR and with an invalid-name error; neither
is a cause `os.IsNotExist` recognises, so `Exists` returns that error and not `(false, nil)`. -/
theorem Exists_absent_entry_is_an_error :
    fs.Stat sample.hostFS (normalizePath ["fs.go/x"]) = Except.error StoreError.NotDir ∧
    StoreError.entryAbsent StoreError.NotDir = true ∧
    flexible.Exists ⟨sample.hostFS⟩ "fs.go/x" = (false, some (GoError.Store StoreError.NotDir)) ∧
    flexible.Exists ⟨sample.hostFS⟩ "fs.go/x" ≠ (false, none) ∧
    fs.Stat sample.hostFS (normalizePath ["/fs.go"]) = Except.error StoreError.Invalid ∧
    StoreError.entryAbsent StoreError.Invalid = true ∧
    flexible.Exists ⟨sample.hostFS⟩ "/fs.go" = (false, some (GoError.Store StoreError.Invalid)) ∧
    flexible.Exists ⟨sample.hostFS⟩ "/fs.go" ≠ (false, none) :=
  ⟨rfl, rfl, by decide, by decide, rfl, rfl, by decide, by decide⟩

theorem flexible.Search_find_invalid (Compile : String → Option Regexp) (f : flexible)
    (dir phrase ignore ext : String) (hF : Compile (spec.findPattern phrase ext) = none) :
    flexible.Search Compile f dir phrase ignore ext =
      { value := none, err := some (errors.New "invalid search pattern"), visited := [] } := by
  have hfind : (if (strings.TrimLeft ext "." == "") = true then Compile (phrase ++ ".*")
      else Compile (phrase ++ ".*\\." ++ strings.TrimLeft ext ".")) = none := by
    rw [← hF, strings.TrimLeft_dot]
    unfold spec.findPattern
    by_cases h : String.mk (spec.stripLeadingDots ext.data) = ""
    · simp [h]
    · simp [h]
  unfold flexible.Search
  simp only [hfind]

theorem flexible.Search_ignore_invalid (Compile : String → Option Regexp) (f : flexible)
    (dir phrase ignore ext : String) (rxFind : Regexp)
    (hF : Compile (spec.findPattern phrase ext) = some rxFind) (hi : ignore ≠ "")
    (hS : Compile (spec.skipPattern ignore) = none) :
    flexible.Search Compile f dir phrase ignore ext =
      { value := none, err := some (errors.New "invalid ignore pattern"), visited := [] } := by
  have hfind : (if (strings.TrimLeft ext "." == "") = true then Compile (phrase ++ ".*")
      else Compile (phrase ++ ".*\\." ++ strings.TrimLeft ext ".")) = some rxFind := by
    rw [← hF, strings.TrimLeft_dot]
    unfold spec.findPattern
    by_cases h : String.mk (spec.stripLeadingDots ext.data) = ""
    · simp [h]
    · simp [h]
  unfold spec.skipPattern at hS
  unfold flexible.Search
  simp only [hfind]
  simp [hi, hS]

/-- C7: a pattern that does not compile gives an invalid-pattern error and no walk.  Whatever
the store and the directory, `Find` and `Lookup` return no result with the error "invalid regex
pattern"; `Search` returns no result with "invalid search pattern" when the find pattern does not
compile, and with "invalid ignore pattern" when the find pattern compiles and the skip pattern of
a non-empty `ignore` does not; and in all these cases no entry of the store is visited. -/
theorem invalid_pattern_never_walks (Compile : String → Option Regexp) (f : flexible)
    (dir : String) :
    (∀ pattern, Compile pattern = none →
      flexible.Find Compile f dir pattern =
        { value := none, err := some (errors.New "invalid regex pattern"), visited := [] } ∧
      flexible.Lookup Compile f dir pattern =
        { value := [], err := some (errors.New "invalid regex pattern"), visited := [] }) ∧
    (∀ phrase ignore ext, Compile (spec.findPattern phrase ext) = none →
      flexible.Search Compile f dir phrase ignore ext =
        { value := none, err := some (errors.New "invalid search pattern"), visited := [] }) ∧
    (∀ phrase ignore ext rxFind, Compile (spec.findPattern phrase ext) = some rxFind →
      ignore ≠ "" → Compile (spec.skipPattern ignore) = none →
      flexible.Search Compile f dir phrase ignore ext =
        { value := none, err := some (errors.New "invalid ignore pattern"), visited := [] }) := by
  refine ⟨?_, ?_, ?_⟩
  · intro pattern hc
    exact ⟨by simp only [flexible.Find, hc], by simp only [flexible.Lookup, hc]⟩
  · intro phrase ignore ext hF
    exact flexible.Search_find_invalid Compile f dir phrase ignore ext hF
  · intro phrase ignore ext rxFind hF hi hS
    exact flexible.Search_ignore_invalid Compile f dir phrase ignore ext rxFind hF hi hS

/-- C7, worked example: the pattern `(` does not compile; `Find` and `Search` with it on the
store of the end-to-end scenarios return the errors and visit nothing. -/
theorem invalid_pattern_never_walks_witness :
    sample.Compile "(" = none ∧
    flexible.Find sample.Compile ⟨sample.repoFS⟩ "." "(" =
      { value := none, err := some (errors.New "invalid regex pattern"), visited := [] } ∧
    sample.Compile (spec.findPattern "fs" "go") = some (sample.regexOf ["fs".data, ".go".data]) ∧
    sample.Compile (spec.skipPattern "(") = none ∧
    flexible.Search sample.Compile ⟨sample.repoFS⟩ "." "fs" "(" "go" =
      { value := none, err := some (errors.New "invalid ignore pattern"), visited := [] } :=
  ⟨rfl,
    ((invalid_pattern_never_walks sample.Compile ⟨sample.repoFS⟩ ".").1 "(" rfl).1,
    rfl, rfl,
    (invalid_pattern_never_walks sample.Compile ⟨sample.repoFS⟩ ".").2.2 "fs" "(" "go"
      (sample.regexOf ["fs".data, ".go".data]) rfl (by decide) rfl⟩

/-- C8: path normalization is idempotent for every list of fragments, a single path being the
list of one fragment, and the only separators in the result are forward slashes: the result is
made of non-empty elements that hold no separator, with one forward slash between neighbours,
behind one leading forward slash when it is rooted. -/
theorem normalizePath_idempotent (ps : List String) :
    normalizePath [normalizePath ps] = normalizePath ps ∧
    ∃ (rooted : Bool) (elems : List (List Char)),
      (rooted = true ∨ elems ≠ []) ∧
      (∀ e ∈ elems, e ≠ [] ∧ ∀ c ∈ e, filepath.IsPathSeparator c = false) ∧
      (normalizePath ps).data =
        (if rooted then ['/'] else []) ++ List.intercalate ['/'] elems :=
  ⟨normalizePath_idem ps, normalizePath_normalForm ps⟩

/-- C8, worked example: `a//b/../c/.` normalizes to `a/c`, which normalizes to itself and is the
two elements `a` and `c` around one forward slash. -/
theorem normalizePath_idempotent_witness :
    normalizePath ["a//b/../c/."] = "a/c" ∧ normalizePath ["a/c"] = "a/c" ∧
    (normalizePath ["a//b/../c/."]).data = List.intercalate ['/'] [['a'], ['c']] := by
  have h := (normalizePath_idempotent ["a//b/../c/."]).1
  have h1 : normalizePath ["a//b/../c/."] = "a/c" := by decide
  rw [h1] at h
  exact ⟨h1, h, by decide⟩

/-- C9 (amended): on empty input, that is no fragments or only empty-string fragments,
`normalizePath` yields ".". -/
theorem normalizePath_of_empty (ps : List String) (h : ∀ p ∈ ps, p = "") :
    normalizePath ps = "." := by
  rw [normalizePath_eq, filepath.Join_nil_of_empty ps h]
  decide

/-- C9, worked example: two empty fragments. -/
theorem normalizePath_of_empty_witness :
    (∀ p ∈ ["", ""], p = "") ∧ normalizePath ["", ""] = "." :=
  ⟨by decide, normalizePath_of_empty ["", ""] (by decide)⟩

/-- C9 as stated fails: without fragments, and with one empty fragment, the result is "." and
not the empty string. -/
theorem normalizePath_empty_is_not_empty :
    normalizePath [] = "." ∧ normalizePath [""] = "." ∧ normalizePath [] ≠ "" ∧
    normalizePath [""] ≠ "" := by
  decide

theorem flexible.searchWalk_not_both (f : flexible) (dir : String) (rxFind : Regexp)
    (rxSkip : Option Regexp) (h : (flexible.searchWalk f dir rxFind rxSkip).err ≠ none) :
    (flexible.searchWalk f dir rxFind rxSkip).value = none := by
  rcases flexible.searchWalk_cases f dir rxFind rxSkip with
    ⟨pre, ev, post, _, _, _, _, hres⟩ | ⟨pre, ev, post, e, _, _, _, hres⟩ | ⟨_, hres⟩
  · rw [hres] at h; exact absurd rfl h
  · rw [hres]
  · rw [hres]

/-- C10: for patterns that compile, when the walk hands the visitor an error before the
operation has halted, `Find`, `Search` and `Lookup` return exactly that error together with no
result, `Lookup` dropping the matches it had collected; and no operation ever returns both a
result and an error. -/
theorem walk_error_is_returned (Compile : String → Option Regexp) (f : flexible)
    (dir : String) :
    (∀ pre ev post e, traversal f.files (normalizePath [dir]) = pre ++ ev :: post →
      ev.err = some e →
      (∀ pattern rx, Compile pattern = some rx →
        (∀ v ∈ pre, v.err = none ∧ v.isMatch rx = false) →
        flexible.Find Compile f dir pattern =
          { value := none, err := some e, visited := pre ++ [ev] }) ∧
      (∀ phrase ignore ext rxFind rxIgnore,
        Compile (spec.findPattern phrase ext) = some rxFind →
        (ignore ≠ "" → Compile (spec.skipPattern ignore) = some rxIgnore) →
        (∀ v ∈ pre, v.err = none ∧ v.isHit rxFind (spec.skipRegex ignore rxIgnore) = false) →
        flexible.Search Compile f dir phrase ignore ext =
          { value := none, err := some e, visited := pre ++ [ev] }) ∧
      (∀ pattern rx, Compile pattern = some rx → (∀ v ∈ pre, v.err = none) →
        flexible.Lookup Compile f dir pattern =
          { value := [], err := some e, visited := pre ++ [ev] })) ∧
    (∀ pattern, (flexible.Find Compile f dir pattern).err ≠ none →
      (flexible.Find Compile f dir pattern).value = none) ∧
    (∀ phrase ignore ext, (flexible.Search Compile f dir phrase ignore ext).err ≠ none →
      (flexible.Search Compile f dir phrase ignore ext).value = none) ∧
    (∀ pattern, (flexible.Lookup Compile f dir pattern).err ≠ none →
      (flexible.Lookup Compile f dir pattern).value = []) := by
  refine ⟨?_, ?_, ?_, ?_⟩
  · intro pre ev post e hT hev
    refine ⟨?_, ?_, ?_⟩
    · intro pattern rx hc hpre
      rw [flexible.Find_eq_searchWalk Compile f dir pattern rx hc]
      exact flexible.searchWalk_err f _ rx none pre post ev e hT
        (fun v hv => ⟨(hpre v hv).1, by rw [Visit.isHit_none]; exact (hpre v hv).2⟩) hev
    · intro phrase ignore ext rxFind rxIgnore hF hS hpre
      rw [flexible.Search_eq_searchWalk Compile f dir phrase ignore ext rxFind rxIgnore hF hS]
      exact flexible.searchWalk_err f _ rxFind _ pre post ev e hT hpre hev
    · intro pattern rx hc hpre
      exact flexible.Lookup_err Compile f dir pattern rx hc pre post ev e hT hpre hev
  · intro pattern h
    cases hc : Compile pattern with
    | none => simp only [flexible.Find, hc]
    | some rx =>
      rw [flexible.Find_eq_searchWalk Compile f dir pattern rx hc] at h ⊢
      exact flexible.searchWalk_not_both f _ rx none h
  · intro phrase ignore ext h
    cases hF : Compile (spec.findPattern phrase ext) with
    | none => rw [flexible.Search_find_invalid Compile f dir phrase ignore ext hF]
    | some rxFind =>
      by_cases hi : ignore = ""
      · rw [flexible.Search_eq_searchWalk Compile f dir phrase ignore ext rxFind rxFind hF
          (fun hne => absurd hi hne)] at h ⊢
        exact flexible.searchWalk_not_both f _ rxFind _ h
      · cases hS : Compile (spec.skipPattern ignore) with
        | none =>
          rw [flexible.Search_ignore_invalid Compile f dir phrase ignore ext rxFind hF hi hS]
        | some rxIgnore =>
          rw [flexible.Search_eq_searchWalk Compile f dir phrase ignore ext rxFind rxIgnore hF
            (fun _ => hS)] at h ⊢
          exact flexible.searchWalk_not_both f _ rxFind _ h
  · intro pattern h
    cases hc : Compile pattern with
    | none => simp only [flexible.Lookup, hc]
    | some rx =>
      by_cases herrs : ∃ v ∈ traversal f.files (normalizePath [dir]), ¬ v.err = none
      · obtain ⟨a, x, b, hT2, ha, hx⟩ := exists_first (fun v : Visit => ¬ v.err = none) _ herrs
        obtain ⟨e, he⟩ : ∃ e, x.err = some e := by
          cases hxe : x.err with
          | none => exact absurd hxe hx
          | some e => exact ⟨e, rfl⟩
        rw [flexible.Lookup_err Compile f dir pattern rx hc a b x e hT2
          (fun v hv => not_not.1 (ha v hv)) he]
      · have hq : ∀ v ∈ traversal f.files (normalizePath [dir]), v.err = none := by
          intro v hv
          by_contra hc2
          exact herrs ⟨v, hv, hc2⟩
        rw [flexible.Lookup_quiet Compile f dir pattern rx hc hq] at h
        exact absurd rfl h

/-- C10, worked example: `Lookup(".", "a\.go")` collects `a.go`, then meets a directory that
cannot be read, and returns the permission error and no list. -/
theorem walk_error_is_returned_witness :
    sample.Compile "a\\.go" = some (sample.regexOf ["a.go".data]) ∧
    flexible.Lookup sample.Compile ⟨sample.lockedFS⟩ "." "a\\.go" =
      { value := [], err := some (GoError.Store StoreError.Permission),
        visited :=
          [{ path := ".", entry := some { Name := ".", IsDir := true }, err := none },
           { path := "a.go", entry := some { Name := "a.go", IsDir := false }, err := none },
           { path := "locked", entry := some { Name := "locked", IsDir := true },
             err := none },
           { path := "locked", entry := some { Name := "locked", IsDir := true },
             err := some (GoError.Store StoreError.Permission) }] } :=
  ⟨rfl,
    ((walk_error_is_returned sample.Compile ⟨sample.lockedFS⟩ ".").1
      [{ path := ".", entry := some { Name := ".", IsDir := true }, err := none },
       { path := "a.go", entry := some { Name := "a.go", IsDir := false }, err := none },
       { path := "locked", entry := some { Name := "locked", IsDir := true }, err := none }]
      { path := "locked", entry := some { Name := "locked", IsDir := true },
        err := some (GoError.Store StoreError.Permission) }
      [] (GoError.Store StoreError.Permission) (by decide) rfl).2.2 "a\\.go"
      (sample.regexOf ["a.go".data]) rfl (by decide)⟩
